import Mathlib

/-!
StartTLS detection on a raw byte stream (`pkg/tcp/starttls.go`).

A shallow embedding of the postgres StartTLS handshake of the TCP proxy:

* the signature table `postgresStartTLSMsg` / `postgresStartTLSReply`;
* the client side `invokeStartTLSPostgresHandshake`;
* the server side `handleStartTLSHandshake`;
* the peeking wrapper `startTLSConn` with `Peek` and `Read`, which delegate to
  a `bufio.Reader` of the Go standard library (`NewReader`, `fill`, `readErr`,
  `Peek`, `Read`), embedded here as `BufReader`.

The connection (`WriteCloser`, an interface) is the environment.  It is
embedded as a scripted connection `Conn`: the results that the successive
`Read` and `Write` calls of the connection will produce, together with the
log of the bytes written so far.  Logging calls have no effect on the results
and are left out.
-/

namespace StartTLS

/-- A byte of the stream, as a natural number. -/
abbrev Byte := Nat

/-- The Go `error` values that occur: `io.EOF`, `io.ErrNoProgress`,
`bufio.ErrBufferFull`, `bufio.ErrNegativeCount`, any other error of the
connection (a timeout, a reset, ...) and the error built by `fmt.Errorf` in
`invokeStartTLSPostgresHandshake`, which carries the slice `b` it prints. -/
inductive Err where
  | EOF
  | ErrNoProgress
  | ErrBufferFull
  | ErrNegativeCount
  | transport (code : Nat)
  | unexpectedResponse (b : List Byte)
  deriving DecidableEq, Repr

/-- One result of `Read` on the connection: the bytes it delivers and the
error it returns with them (`none` is `nil`). -/
structure ReadEvent where
  data : List Byte
  err : Option Err
  deriving DecidableEq, Repr

/-- One result of `Write` on the connection: success, or failure with error
`e` after `n` bytes got through. -/
inductive WriteEvent where
  | ok
  | fail (n : Nat) (e : Err)
  deriving DecidableEq, Repr

/-- A connection (`WriteCloser`): `incoming` lists what the next reads deliver,
after which the stream is closed (every further read returns `0, io.EOF`);
`wscript` lists the outcomes of the next writes, after which writes succeed;
`written` is the log of all bytes written to the connection. -/
structure Conn where
  incoming : List ReadEvent
  wscript : List WriteEvent
  written : List Byte
  deriving DecidableEq, Repr

/-- `conn.Read(p)` with `len(p) = k`: returns the bytes stored in `p[:n]` and
the error.  A read never delivers more than `k` bytes; what does not fit stays
first in line for the next read. -/
def Conn.Read (c : Conn) (k : Nat) : (List Byte × Option Err) × Conn :=
  match c.incoming with
  | [] => (([], some Err.EOF), c)
  | ev :: rest =>
    if ev.data.length ≤ k then
      ((ev.data, ev.err), { c with incoming := rest })
    else
      ((ev.data.take k, none),
        { c with incoming := { ev with data := ev.data.drop k } :: rest })

/-- `conn.Write(p)`: returns the count `n` and the error, and appends the bytes
that got through to the log. -/
def Conn.Write (c : Conn) (p : List Byte) : (Nat × Option Err) × Conn :=
  match c.wscript with
  | [] => ((p.length, none), { c with written := c.written ++ p })
  | WriteEvent.ok :: ws =>
    ((p.length, none), { c with wscript := ws, written := c.written ++ p })
  | WriteEvent.fail n e :: ws =>
    (((p.take n).length, some e),
      { c with wscript := ws, written := c.written ++ p.take n })

/-- The signature sent by the client: `int32(8) + int32(80877103)`. -/
def postgresStartTLSMsg : List Byte := [0, 0, 0, 8, 4, 210, 22, 47]

/-- The reply of the server: `S`. -/
def postgresStartTLSReply : List Byte := [83]

/-- The slice `p` after a read stored `d` at its start (`len(d) ≤ len(p)`). -/
def stored (p d : List Byte) : List Byte := d ++ p.drop d.length

/-- `invokeStartTLSPostgresHandshake(conn)`: the returned error (`none` is
`nil`) and the connection afterwards. -/
def invokeStartTLSPostgresHandshake (conn : Conn) : Option Err × Conn :=
  let (w, conn) := conn.Write postgresStartTLSMsg
  match w.2 with
  | some err => (some err, conn)
  | none =>
    let b : List Byte := List.replicate 1 0
    let (r, conn) := conn.Read b.length
    let b := stored b r.1
    match r.2 with
    | some err => (some err, conn)
    | none =>
      if b.headD 0 ≠ postgresStartTLSReply.headD 0 then
        (some (Err.unexpectedResponse b), conn)
      else
        (none, conn)

/-- `bufio.defaultBufSize`. -/
def defaultBufSize : Nat := 4096

/-- `bufio.maxConsecutiveEmptyReads`. -/
def maxConsecutiveEmptyReads : Nat := 100

/-- A `bufio.Reader` without its source `rd` (the connection is passed along
explicitly, as it is shared with the wrapper): `buf` is the unread window
`b.buf[b.r:b.w]`, `size` is `len(b.buf)`, `err` is `b.err`.  The fields
`lastByte` and `lastRuneSize` only serve `UnreadByte`/`UnreadRune`. -/
structure BufReader where
  buf : List Byte
  size : Nat
  err : Option Err
  deriving DecidableEq, Repr

/-- `bufio.NewReader(rd)`: an empty buffer of the default size. -/
def BufReader.NewReader : BufReader := { buf := [], size := defaultBufSize, err := none }

/-- The read loop of `(*Reader).fill`, with `i` attempts left: it reads into
the free part `b.buf[b.w:]` until a read delivers bytes or fails, and gives up
with `io.ErrNoProgress` when no attempt is left. -/
def BufReader.fillLoop : Nat → BufReader → Conn → BufReader × Conn
  | 0, b, c => ({ b with err := some Err.ErrNoProgress }, c)
  | i + 1, b, c =>
    let (r, c) := c.Read (b.size - b.buf.length)
    let b := { b with buf := b.buf ++ r.1 }
    match r.2 with
    | some err => ({ b with err := some err }, c)
    | none => if r.1.length > 0 then (b, c) else BufReader.fillLoop i b c

/-- `(*Reader).fill`: sliding the window to the start of the array does not
change the window; `fill` is only called with a buffer that is not full. -/
def BufReader.fill (b : BufReader) (c : Conn) : BufReader × Conn :=
  BufReader.fillLoop maxConsecutiveEmptyReads b c

/-- `(*Reader).readErr`: the pending error, which is cleared. -/
def BufReader.readErr (b : BufReader) : Option Err × BufReader :=
  (b.err, { b with err := none })

/-- The loop `for b.w-b.r < n && b.w-b.r < len(b.buf) && b.err == nil { b.fill() }`
of `(*Reader).Peek`, with a bound on the number of rounds. -/
def BufReader.peekLoop (n : Nat) : Nat → BufReader → Conn → BufReader × Conn
  | 0, b, c => (b, c)
  | fuel + 1, b, c =>
    if b.buf.length < n ∧ b.buf.length < b.size ∧ b.err = none then
      let (b, c) := b.fill c
      BufReader.peekLoop n fuel b c
    else (b, c)

/-- `(*Reader).Peek(n)`.  Every round of the loop either adds a byte to the
window or sets `b.err`, so `n` rounds are enough (`peekLoop_exit`). -/
def BufReader.Peek (b : BufReader) (c : Conn) (n : Int) :
    (List Byte × Option Err) × BufReader × Conn :=
  if n < 0 then (([], some Err.ErrNegativeCount), b, c)
  else
    let n := n.toNat
    let (b, c) := BufReader.peekLoop n n b c
    if n > b.size then ((b.buf, some Err.ErrBufferFull), b, c)
    else if b.buf.length < n then
      let (err, b) := b.readErr
      match err with
      | none => ((b.buf, some Err.ErrBufferFull), b, c)
      | some err => ((b.buf, some err), b, c)
    else ((b.buf.take n, none), b, c)

/-- `(*Reader).Read(p)` with `len(p) = k`: the bytes stored in `p[:n]` and the
error. -/
def BufReader.Read (b : BufReader) (c : Conn) (k : Nat) :
    (List Byte × Option Err) × BufReader × Conn :=
  if k = 0 then
    if b.buf.length > 0 then (([], none), b, c)
    else
      let (err, b) := b.readErr
      (([], err), b, c)
  else if b.buf.length = 0 then
    if b.err ≠ none then
      let (err, b) := b.readErr
      (([], err), b, c)
    else if k ≥ b.size then
      let (r, c) := c.Read k
      let (err, b) := BufReader.readErr { b with err := r.2 }
      ((r.1, err), b, c)
    else
      let (r, c) := c.Read b.size
      let b := { b with err := r.2 }
      if r.1.length = 0 then
        let (err, b) := b.readErr
        (([], err), b, c)
      else
        ((r.1.take k, none), { b with buf := r.1.drop k }, c)
  else
    ((b.buf.take k, none), { b with buf := b.buf.drop k }, c)

/-- The wrapper `startTLSConn`: the buffered reader `br` and the embedded
`WriteCloser`.  Both refer to the same connection, whose state is `conn`. -/
structure startTLSConn where
  br : BufReader
  conn : Conn
  deriving DecidableEq, Repr

/-- `newStartTLSConn(conn)`. -/
def newStartTLSConn (conn : Conn) : startTLSConn :=
  { br := BufReader.NewReader, conn := conn }

/-- `startTLSConn.Peek(n)`. -/
def startTLSConn.Peek (s : startTLSConn) (n : Int) :
    (List Byte × Option Err) × startTLSConn :=
  let (r, br, c) := s.br.Peek s.conn n
  (r, { br := br, conn := c })

/-- `startTLSConn.Read(p)` with `len(p) = k`. -/
def startTLSConn.Read (s : startTLSConn) (k : Nat) :
    (List Byte × Option Err) × startTLSConn :=
  let (r, br, c) := s.br.Read s.conn k
  (r, { br := br, conn := c })

/-- `startTLSConn.Write(p)`, promoted from the embedded `WriteCloser`. -/
def startTLSConn.Write (s : startTLSConn) (p : List Byte) :
    (Nat × Option Err) × startTLSConn :=
  let (r, c) := s.conn.Write p
  (r, { s with conn := c })

/-- `handleStartTLSHandshake(conn)`: the returned wrapper and error. -/
def handleStartTLSHandshake (conn : Conn) : startTLSConn × Option Err :=
  let s := newStartTLSConn conn
  let (r, s) := s.Peek postgresStartTLSMsg.length
  let buf := r.1
  match r.2 with
  | some err => (s, some err)
  | none =>
    if buf ≠ postgresStartTLSMsg then (s, none)
    else
      let (_, s) := s.Read buf.length
      let (w, conn) := s.conn.Write postgresStartTLSReply
      let s := { s with conn := conn }
      match w.2 with
      | some err => (s, some err)
      | none => (s, none)

/-- The caller reading the wrapper to its end: `Read` with a buffer of `k`
bytes is repeated until it returns an error; the result is the concatenation
of the bytes read and that error, or `none` if `fuel` reads did not reach it. -/
def startTLSConn.readAll (k : Nat) : Nat → startTLSConn → Option (List Byte × Err)
  | 0, _ => none
  | fuel + 1, s =>
    let (r, s) := s.Read k
    match r.2 with
    | some err => some (r.1, err)
    | none => (startTLSConn.readAll k fuel s).map (fun t => (r.1 ++ t.1, t.2))

/-- The same loop on the connection itself, without a wrapper. -/
def Conn.readAll (k : Nat) : Nat → Conn → Option (List Byte × Err)
  | 0, _ => none
  | fuel + 1, c =>
    let (r, c) := c.Read k
    match r.2 with
    | some err => some (r.1, err)
    | none => (Conn.readAll k fuel c).map (fun t => (r.1 ++ t.1, t.2))

/-- The connection that delivers the `chunks` one per read and is then closed,
with the write outcomes `ws` and nothing written yet. -/
def Conn.ofChunks (chunks : List (List Byte)) (ws : List WriteEvent) : Conn :=
  { incoming := chunks.map (fun d => { data := d, err := none }),
    wscript := ws, written := [] }

/-- The bytes that a list of read events delivers, in order. -/
def delivered : List ReadEvent → List Byte
  | [] => []
  | ev :: rest => ev.data ++ delivered rest

/-- The byte sequence that the connection still has to deliver. -/
def Conn.bytes (c : Conn) : List Byte := delivered c.incoming

/-- A connection that delivers its bytes in non-empty chunks, each without
error, and is closed after the last one. -/
def Conn.Clean (c : Conn) : Prop :=
  ∀ ev ∈ c.incoming, ev.err = none ∧ ev.data ≠ []

instance (c : Conn) : Decidable c.Clean := by
  unfold Conn.Clean
  infer_instance

/-- The bytes readable through the wrapper: the unread window of the buffer
followed by what the connection still has to deliver. -/
def startTLSConn.content (s : startTLSConn) : List Byte := s.br.buf ++ s.conn.bytes

/-- A wrapper in regular operation: no pending error, a window within the
buffer, over a clean connection. -/
def startTLSConn.Regular (s : startTLSConn) : Prop :=
  s.br.err = none ∧ s.br.buf.length ≤ s.br.size ∧ 0 < s.br.size ∧ s.conn.Clean

/-- The big-endian encoding of a 32-bit value in four bytes. -/
def be32 (v : Nat) : List Byte :=
  [v / 2 ^ 24 % 256, v / 2 ^ 16 % 256, v / 2 ^ 8 % 256, v % 256]

/-- The verb `%v` of `fmt` on a byte slice: the decimal values of the bytes,
separated by spaces, between brackets. -/
def fmtBytes (b : List Byte) : String :=
  "[" ++ " ".intercalate (b.map Nat.repr) ++ "]"

/-- The text of an error, where the source or the Go library fixes it: the
message built by `fmt.Errorf` in `invokeStartTLSPostgresHandshake` and the
messages of the errors of `io` and `bufio`.  The text of an error of the
connection is not fixed by them. -/
def Err.Error : Err → Option String
  | Err.EOF => some "EOF"
  | Err.ErrNoProgress => some "multiple Read calls return no data or error"
  | Err.ErrBufferFull => some "bufio: buffer full"
  | Err.ErrNegativeCount => some "bufio: negative count"
  | Err.transport _ => none
  | Err.unexpectedResponse b =>
    some ("Unexpected postgres starttls handshake response got " ++ fmtBytes b
      ++ " want \x27S\x27 ")

/-- The errors that the read events of the connection carry, in order. -/
def Conn.readErrors (c : Conn) : List Err := c.incoming.filterMap (fun ev => ev.err)

/-- A wrapper at rest over a connection that delivers its bytes in non-empty
chunks without error and is then closed: the buffer has the default size and
the window lies within it, and the reader has no pending error, or has
`io.EOF` pending while the connection is closed.  These are the states that
`newStartTLSConn` makes and that `Peek`, `Read` and `Write` keep
(`Steady_new`, `Steady_Peek`, `Steady_Read`, `Steady_Write`). -/
def startTLSConn.Steady (s : startTLSConn) : Prop :=
  s.br.size = defaultBufSize ∧ s.br.buf.length ≤ s.br.size ∧ s.conn.Clean ∧
    (s.br.err = none ∨ (s.br.err = some Err.EOF ∧ s.conn.incoming = []))

/-! ## The connection -/

theorem Conn.Read_wscript (c : Conn) (k : Nat) : (c.Read k).2.wscript = c.wscript := by
  unfold Conn.Read
  split
  · rfl
  · split <;> rfl

theorem Conn.Read_written (c : Conn) (k : Nat) : (c.Read k).2.written = c.written := by
  unfold Conn.Read
  split
  · rfl
  · split <;> rfl

theorem Conn.Read_closed (c : Conn) (k : Nat) (h : c.incoming = []) :
    c.Read k = (([], some Err.EOF), c) := by
  unfold Conn.Read
  rw [h]

theorem Conn.Read_length (c : Conn) (k : Nat) : (c.Read k).1.1.length ≤ k := by
  unfold Conn.Read
  split
  · simp
  · split
    · assumption
    · simp

theorem Conn.bytes_nil_iff (c : Conn) (hc : c.Clean) : c.bytes = [] ↔ c.incoming = [] := by
  unfold Conn.bytes
  constructor
  · intro h
    cases hi : c.incoming with
    | nil => rfl
    | cons ev rest =>
      rw [hi] at h
      have := (hc ev (by rw [hi]; exact List.mem_cons_self _ _)).2
      simp [delivered] at h
      exact absurd h.1 this
  · intro h
    rw [h]; rfl

/-- A read of an open clean connection delivers a non-empty prefix of its
bytes without error and leaves a clean connection. -/
theorem Conn.Read_clean (c : Conn) (k : Nat) (hc : c.Clean) (hk : 0 < k)
    (hne : c.incoming ≠ []) :
    (c.Read k).1.2 = none ∧ (c.Read k).1.1 ≠ [] ∧
      (c.Read k).1.1 ++ (c.Read k).2.bytes = c.bytes ∧ (c.Read k).2.Clean := by
  unfold Conn.Read
  cases hi : c.incoming with
  | nil => exact absurd hi hne
  | cons ev rest =>
    have hev := hc ev (by rw [hi]; exact List.mem_cons_self _ _)
    have hrest : ∀ e ∈ rest, e.err = none ∧ e.data ≠ [] := fun e he =>
      hc e (by rw [hi]; exact List.mem_cons_of_mem _ he)
    simp only
    split
    · refine ⟨hev.1, hev.2, ?_, ?_⟩
      · simp [Conn.bytes, delivered, hi]
      · exact hrest
    · rename_i hlt
      refine ⟨rfl, ?_, ?_, ?_⟩
      · intro h
        have hlen := congrArg List.length h
        rw [List.length_take] at hlen
        simp only [List.length_nil] at hlen
        omega
      · simp [Conn.bytes, delivered, hi, ← List.append_assoc]
      · intro e he
        simp only [List.mem_cons] at he
        rcases he with rfl | he
        · refine ⟨hev.1, ?_⟩
          simp only
          intro h
          have hlen := congrArg List.length h
          rw [List.length_drop] at hlen
          simp only [List.length_nil] at hlen
          omega
        · exact hrest e he

/-! ## The buffered reader -/

theorem BufReader.fillLoop_succ (i : Nat) (b : BufReader) (c : Conn) :
    BufReader.fillLoop (i + 1) b c =
      match (c.Read (b.size - b.buf.length)).1.2 with
      | some err =>
        ({ b with buf := b.buf ++ (c.Read (b.size - b.buf.length)).1.1, err := some err },
          (c.Read (b.size - b.buf.length)).2)
      | none =>
        if (c.Read (b.size - b.buf.length)).1.1.length > 0 then
          ({ b with buf := b.buf ++ (c.Read (b.size - b.buf.length)).1.1 },
            (c.Read (b.size - b.buf.length)).2)
        else
          BufReader.fillLoop i { b with buf := b.buf ++ (c.Read (b.size - b.buf.length)).1.1 }
            (c.Read (b.size - b.buf.length)).2 := rfl

theorem BufReader.fill_eq (b : BufReader) (c : Conn) :
    b.fill c = BufReader.fillLoop (99 + 1) b c := rfl

theorem BufReader.fillLoop_frame (i : Nat) (b : BufReader) (c : Conn) :
    (BufReader.fillLoop i b c).2.wscript = c.wscript ∧
      (BufReader.fillLoop i b c).2.written = c.written ∧
      (BufReader.fillLoop i b c).1.size = b.size := by
  induction i generalizing b c with
  | zero => simp [BufReader.fillLoop]
  | succ i ih =>
    have hw := Conn.Read_wscript c (b.size - b.buf.length)
    have hl := Conn.Read_written c (b.size - b.buf.length)
    rw [BufReader.fillLoop_succ]
    generalize c.Read (b.size - b.buf.length) = rc at hw hl ⊢
    obtain ⟨⟨d, e⟩, c1⟩ := rc
    cases e with
    | some err => exact ⟨hw, hl, rfl⟩
    | none =>
      simp only
      split
      · exact ⟨hw, hl, rfl⟩
      · have := ih { b with buf := b.buf ++ d } c1
        simp only at hw hl
        rw [hw, hl] at this
        exact this

theorem BufReader.fill_frame (b : BufReader) (c : Conn) :
    (b.fill c).2.wscript = c.wscript ∧ (b.fill c).2.written = c.written ∧
      (b.fill c).1.size = b.size :=
  BufReader.fillLoop_frame _ b c

/-- On a closed connection `fill` records `io.EOF`. -/
theorem BufReader.fill_closed (b : BufReader) (c : Conn) (h : c.incoming = []) :
    b.fill c = ({ b with err := some Err.EOF }, c) := by
  rw [BufReader.fill_eq, BufReader.fillLoop_succ, Conn.Read_closed c _ h]
  simp only [List.append_nil]

/-- On an open clean connection `fill` appends the result of one read. -/
theorem BufReader.fill_open (b : BufReader) (c : Conn) (hc : c.Clean)
    (hne : c.incoming ≠ []) (hfree : b.buf.length < b.size) :
    b.fill c = ({ b with buf := b.buf ++ (c.Read (b.size - b.buf.length)).1.1 },
      (c.Read (b.size - b.buf.length)).2) := by
  have hr := Conn.Read_clean c (b.size - b.buf.length) hc (by omega) hne
  rw [BufReader.fill_eq, BufReader.fillLoop_succ]
  generalize c.Read (b.size - b.buf.length) = rc at hr ⊢
  obtain ⟨⟨d, e⟩, c1⟩ := rc
  simp only at hr
  obtain ⟨he, hd, -, -⟩ := hr
  subst he
  simp only
  rw [if_pos (List.length_pos.mpr hd)]

theorem BufReader.peekLoop_frame (n fuel : Nat) (b : BufReader) (c : Conn) :
    (BufReader.peekLoop n fuel b c).2.wscript = c.wscript ∧
      (BufReader.peekLoop n fuel b c).2.written = c.written ∧
      (BufReader.peekLoop n fuel b c).1.size = b.size := by
  induction fuel generalizing b c with
  | zero => simp [BufReader.peekLoop]
  | succ fuel ih =>
    simp only [BufReader.peekLoop]
    split
    · have hf := BufReader.fill_frame b c
      generalize b.fill c = bc at hf ⊢
      obtain ⟨b1, c1⟩ := bc
      have := ih b1 c1
      simp only at hf ⊢
      rw [hf.1, hf.2.1, hf.2.2] at this
      exact this
    · exact ⟨rfl, rfl, rfl⟩

theorem BufReader.peekLoop_err (n fuel : Nat) (b : BufReader) (c : Conn)
    (h : b.err ≠ none) : BufReader.peekLoop n fuel b c = (b, c) := by
  cases fuel with
  | zero => rfl
  | succ fuel =>
    simp only [BufReader.peekLoop]
    rw [if_neg]
    intro hh
    exact h hh.2.2

/-- On any connection, `fill` sets `b.err` or adds at least one byte. -/
theorem BufReader.fillLoop_progress (i : Nat) (b : BufReader) (c : Conn) :
    (BufReader.fillLoop i b c).1.err ≠ none ∨
      b.buf.length < (BufReader.fillLoop i b c).1.buf.length := by
  induction i generalizing b c with
  | zero => left; simp [BufReader.fillLoop]
  | succ i ih =>
    rw [BufReader.fillLoop_succ]
    generalize c.Read (b.size - b.buf.length) = rc
    obtain ⟨⟨d, e⟩, c1⟩ := rc
    cases e with
    | some err => left; simp
    | none =>
      simp only
      split
      · right
        simp only [List.length_append]
        omega
      · rcases ih { b with buf := b.buf ++ d } c1 with h | h
        · exact Or.inl h
        · right
          simp only [List.length_append] at h
          omega

theorem BufReader.peekLoop_succ (n fuel : Nat) (b : BufReader) (c : Conn) :
    BufReader.peekLoop n (fuel + 1) b c =
      if b.buf.length < n ∧ b.buf.length < b.size ∧ b.err = none then
        BufReader.peekLoop n fuel (b.fill c).1 (b.fill c).2
      else (b, c) := rfl

/-- The loop of `Peek` over a clean connection: it keeps the readable bytes,
and it stops either with enough bytes (or a full buffer) and no error, or at
the end of the stream with `io.EOF` pending. -/
theorem BufReader.peekLoop_clean (n : Nat) (fuel : Nat) (b : BufReader) (c : Conn)
    (hc : c.Clean) (he : b.err = none) (hsz : b.buf.length ≤ b.size)
    (hfuel : n ≤ fuel + b.buf.length) :
    (BufReader.peekLoop n fuel b c).1.buf ++ (BufReader.peekLoop n fuel b c).2.bytes
        = b.buf ++ c.bytes ∧
      (BufReader.peekLoop n fuel b c).2.Clean ∧
      (BufReader.peekLoop n fuel b c).1.buf.length ≤ b.size ∧
      (((BufReader.peekLoop n fuel b c).1.err = none ∧
          (n ≤ (BufReader.peekLoop n fuel b c).1.buf.length ∨
            (BufReader.peekLoop n fuel b c).1.buf.length = b.size)) ∨
        ((BufReader.peekLoop n fuel b c).1.err = some Err.EOF ∧
          (BufReader.peekLoop n fuel b c).2.incoming = [] ∧
          (BufReader.peekLoop n fuel b c).1.buf.length < n)) := by
  induction fuel generalizing b c with
  | zero =>
    refine ⟨rfl, hc, hsz, Or.inl ⟨he, Or.inl ?_⟩⟩
    simpa using hfuel
  | succ fuel ih =>
    rw [BufReader.peekLoop_succ]
    by_cases hcond : b.buf.length < n ∧ b.buf.length < b.size ∧ b.err = none
    · rw [if_pos hcond]
      by_cases hi : c.incoming = []
      · rw [BufReader.fill_closed b c hi, BufReader.peekLoop_err _ _ _ _ (by simp)]
        exact ⟨rfl, hc, hsz, Or.inr ⟨rfl, hi, hcond.1⟩⟩
      · rw [BufReader.fill_open b c hc hi hcond.2.1]
        have hr := Conn.Read_clean c (b.size - b.buf.length) hc (by omega) hi
        have hl := Conn.Read_length c (b.size - b.buf.length)
        generalize c.Read (b.size - b.buf.length) = rc at hr hl ⊢
        obtain ⟨⟨d, e⟩, c1⟩ := rc
        simp only at hr hl ⊢
        obtain ⟨-, hd, hbytes, hc1⟩ := hr
        have hdl : 0 < d.length := List.length_pos.mpr hd
        have := ih { b with buf := b.buf ++ d } c1 hc1 he
          (by simp only [List.length_append]; omega)
          (by simp only [List.length_append]; omega)
        simp only at this
        rw [List.append_assoc, hbytes] at this
        exact this
    · rw [if_neg hcond]
      refine ⟨rfl, hc, hsz, Or.inl ⟨he, ?_⟩⟩
      simp only
      by_cases h1 : b.buf.length < n
      · right
        by_contra h2
        exact hcond ⟨h1, by omega, he⟩
      · left; omega

/-- On any connection, the loop of `Peek(n)` has ended after at most `n`
rounds: its condition is false in the state that `peekLoop` returns. -/
theorem BufReader.peekLoop_exit (n fuel : Nat) (b : BufReader) (c : Conn)
    (hfuel : n ≤ fuel + b.buf.length) :
    ¬ ((BufReader.peekLoop n fuel b c).1.buf.length < n ∧
        (BufReader.peekLoop n fuel b c).1.buf.length < (BufReader.peekLoop n fuel b c).1.size ∧
        (BufReader.peekLoop n fuel b c).1.err = none) := by
  induction fuel generalizing b c with
  | zero =>
    intro h
    simp only [BufReader.peekLoop] at h
    omega
  | succ fuel ih =>
    rw [BufReader.peekLoop_succ]
    by_cases hcond : b.buf.length < n ∧ b.buf.length < b.size ∧ b.err = none
    · rw [if_pos hcond]
      have hp := BufReader.fillLoop_progress maxConsecutiveEmptyReads b c
      change (b.fill c).1.err ≠ none ∨ b.buf.length < (b.fill c).1.buf.length at hp
      rcases hp with h | h
      · have hstop := BufReader.peekLoop_err n fuel (b.fill c).1 (b.fill c).2 h
        rw [hstop]
        intro hh
        exact h hh.2.2
      · exact ih (b.fill c).1 (b.fill c).2 (by omega)
    · rw [if_neg hcond]
      exact hcond

theorem BufReader.Peek_unfold (b : BufReader) (c : Conn) (n : Nat) :
    b.Peek c (n : Int) =
      if n > (BufReader.peekLoop n n b c).1.size then
        (((BufReader.peekLoop n n b c).1.buf, some Err.ErrBufferFull),
          (BufReader.peekLoop n n b c).1, (BufReader.peekLoop n n b c).2)
      else if (BufReader.peekLoop n n b c).1.buf.length < n then
        match (BufReader.peekLoop n n b c).1.err with
        | none => (((BufReader.peekLoop n n b c).1.buf, some Err.ErrBufferFull),
            { (BufReader.peekLoop n n b c).1 with err := none }, (BufReader.peekLoop n n b c).2)
        | some err => (((BufReader.peekLoop n n b c).1.buf, some err),
            { (BufReader.peekLoop n n b c).1 with err := none }, (BufReader.peekLoop n n b c).2)
      else
        (((BufReader.peekLoop n n b c).1.buf.take n, none),
          (BufReader.peekLoop n n b c).1, (BufReader.peekLoop n n b c).2) := by
  unfold BufReader.Peek
  rw [if_neg (by omega)]
  simp only [Int.toNat_ofNat, BufReader.readErr]

theorem BufReader.peekLoop_enough (n fuel : Nat) (b : BufReader) (c : Conn)
    (h : n ≤ b.buf.length) : BufReader.peekLoop n fuel b c = (b, c) := by
  cases fuel with
  | zero => rfl
  | succ fuel =>
    rw [BufReader.peekLoop_succ, if_neg]
    intro hh
    omega

/-! ## The wrapper -/

theorem startTLSConn.Peek_eq (s : startTLSConn) (n : Int) :
    s.Peek n = ((s.br.Peek s.conn n).1,
      { br := (s.br.Peek s.conn n).2.1, conn := (s.br.Peek s.conn n).2.2 }) := rfl

theorem startTLSConn.Read_eq (s : startTLSConn) (k : Nat) :
    s.Read k = ((s.br.Read s.conn k).1,
      { br := (s.br.Read s.conn k).2.1, conn := (s.br.Read s.conn k).2.2 }) := rfl

/-- A peek never writes, and keeps the write script and the buffer size. -/
theorem startTLSConn.Peek_frame (s : startTLSConn) (n : Int) :
    (s.Peek n).2.conn.wscript = s.conn.wscript ∧
      (s.Peek n).2.conn.written = s.conn.written ∧
      (s.Peek n).2.br.size = s.br.size := by
  rw [startTLSConn.Peek_eq]
  by_cases hn : n < 0
  · unfold BufReader.Peek
    rw [if_pos hn]
    exact ⟨rfl, rfl, rfl⟩
  · obtain ⟨m, rfl⟩ := Int.eq_ofNat_of_zero_le (by omega : 0 ≤ n)
    have hf := BufReader.peekLoop_frame m m s.br s.conn
    rw [BufReader.Peek_unfold]
    generalize BufReader.peekLoop m m s.br s.conn = bc at hf ⊢
    obtain ⟨b1, c1⟩ := bc
    simp only at hf ⊢
    split
    · exact hf
    · split
      · split <;> exact hf
      · exact hf

/-- A successful peek returns exactly `n` bytes, all of them in the buffer. -/
theorem startTLSConn.Peek_ok_length (s : startTLSConn) (n : Nat)
    (h : (s.Peek (n : Int)).1.2 = none) :
    (s.Peek (n : Int)).1.1.length = n ∧
      (s.Peek (n : Int)).1.1 = (s.Peek (n : Int)).2.br.buf.take n ∧
      n ≤ (s.Peek (n : Int)).2.br.buf.length := by
  rw [startTLSConn.Peek_eq, BufReader.Peek_unfold] at h ⊢
  generalize BufReader.peekLoop n n s.br s.conn = bc at h ⊢
  obtain ⟨b1, c1⟩ := bc
  simp only at h ⊢
  split at h
  · simp at h
  · split at h
    · split at h <;> simp at h
    · rename_i h1 h2
      rw [if_neg h1, if_neg h2]
      refine ⟨?_, rfl, ?_⟩
      · simp only [List.length_take]
        omega
      · simp only
        omega

/-- A second peek right after a successful one returns the same bytes and
changes nothing. -/
theorem startTLSConn.Peek_again (s : startTLSConn) (n : Nat)
    (h : (s.Peek (n : Int)).1.2 = none) :
    (s.Peek (n : Int)).2.Peek (n : Int) = s.Peek (n : Int) := by
  have hlen := (startTLSConn.Peek_ok_length s n h).2.2
  have hsz : n ≤ (s.Peek (n : Int)).2.br.size := by
    by_contra hgt
    rw [startTLSConn.Peek_eq, BufReader.Peek_unfold] at h
    rw [(startTLSConn.Peek_frame s n).2.2] at hgt
    have hf := (BufReader.peekLoop_frame n n s.br s.conn).2.2
    rw [if_pos (by omega)] at h
    simp at h
  have h2 := (startTLSConn.Peek_ok_length s n h).2.1
  generalize s.Peek (n : Int) = rs at h hlen hsz h2 ⊢
  obtain ⟨⟨p, e⟩, s1⟩ := rs
  simp only at h hlen hsz h2 ⊢
  subst h
  rw [startTLSConn.Peek_eq, BufReader.Peek_unfold, BufReader.peekLoop_enough _ _ _ _ hlen]
  simp only
  rw [if_neg (by omega), if_neg (by omega), h2]

/-- Peeking at `n` bytes of a regular wrapper that has at least `n` bytes to
read: the first `n` bytes are returned and stay readable. -/
theorem startTLSConn.Peek_enough (s : startTLSConn) (n : Nat) (hs : s.Regular)
    (hn : n ≤ s.br.size) (hlen : n ≤ s.content.length) :
    (s.Peek (n : Int)).1 = (s.content.take n, none) ∧ (s.Peek (n : Int)).2.Regular ∧
      (s.Peek (n : Int)).2.content = s.content ∧
      n ≤ (s.Peek (n : Int)).2.br.buf.length := by
  obtain ⟨he, hsz, hpos, hc⟩ := hs
  have hl := BufReader.peekLoop_clean n n s.br s.conn hc he hsz (by omega)
  have hf := (BufReader.peekLoop_frame n n s.br s.conn).2.2
  rw [startTLSConn.Peek_eq, BufReader.Peek_unfold]
  unfold startTLSConn.content at hlen ⊢
  unfold startTLSConn.Regular
  generalize BufReader.peekLoop n n s.br s.conn = bc at hl hf ⊢
  obtain ⟨b1, c1⟩ := bc
  simp only at hl hf ⊢
  obtain ⟨hbytes, hc1, hsz1, hexit⟩ := hl
  have hlen1 : n ≤ b1.buf.length := by
    rcases hexit with ⟨-, h | h⟩ | ⟨-, hi, hlt⟩
    · exact h
    · omega
    · have hb : c1.bytes = [] := by unfold Conn.bytes; rw [hi]; rfl
      rw [hb, List.append_nil] at hbytes
      rw [← hbytes] at hlen
      omega
  have herr : b1.err = none := by
    rcases hexit with ⟨h, -⟩ | ⟨-, -, hlt⟩
    · exact h
    · omega
  rw [if_neg (by omega), if_neg (by omega)]
  refine ⟨?_, ⟨herr, ?_, ?_, hc1⟩, hbytes, hlen1⟩
  · rw [← hbytes, List.take_append_of_le_length hlen1]
  · simp only; omega
  · simp only; omega

/-- Peeking at `n` bytes of a regular wrapper whose stream ends before: all
the bytes are returned with `io.EOF`, and they stay in the buffer. -/
theorem startTLSConn.Peek_short (s : startTLSConn) (n : Nat) (hs : s.Regular)
    (hn : n ≤ s.br.size) (hlen : s.content.length < n) :
    s.Peek (n : Int) = ((s.content, some Err.EOF),
      { br := { buf := s.content, size := s.br.size, err := none },
        conn := { s.conn with incoming := [] } }) := by
  obtain ⟨he, hsz, hpos, hc⟩ := hs
  have hl := BufReader.peekLoop_clean n n s.br s.conn hc he hsz (by omega)
  have hf := BufReader.peekLoop_frame n n s.br s.conn
  rw [startTLSConn.Peek_eq, BufReader.Peek_unfold]
  unfold startTLSConn.content at hlen ⊢
  generalize BufReader.peekLoop n n s.br s.conn = bc at hl hf ⊢
  obtain ⟨b1, c1⟩ := bc
  simp only at hl hf ⊢
  obtain ⟨hbytes, hc1, hsz1, hexit⟩ := hl
  have hle : b1.buf.length ≤ (s.br.buf ++ s.conn.bytes).length := by
    rw [← hbytes, List.length_append]; omega
  rcases hexit with ⟨-, h | h⟩ | ⟨herr, hi, hlt⟩
  · omega
  · omega
  · have hb : c1.bytes = [] := by unfold Conn.bytes; rw [hi]; rfl
    rw [hb, List.append_nil] at hbytes
    rw [if_neg (by omega), if_pos hlt, herr]
    obtain ⟨buf1, size1, err1⟩ := b1
    obtain ⟨inc1, ws1, wr1⟩ := c1
    simp only at hbytes hf hi ⊢
    obtain ⟨hw, hwr, hsize⟩ := hf
    subst hbytes hw hwr hsize hi
    rfl

theorem BufReader.Read_unfold (b : BufReader) (c : Conn) (k : Nat) :
    b.Read c k =
      if k = 0 then
        if b.buf.length > 0 then (([], none), b, c)
        else (([], b.err), { b with err := none }, c)
      else if b.buf.length = 0 then
        if b.err ≠ none then (([], b.err), { b with err := none }, c)
        else if k ≥ b.size then
          (((c.Read k).1.1, (c.Read k).1.2), { b with err := none }, (c.Read k).2)
        else if (c.Read b.size).1.1.length = 0 then
          (([], (c.Read b.size).1.2), { b with err := none }, (c.Read b.size).2)
        else
          (((c.Read b.size).1.1.take k, none),
            { b with buf := (c.Read b.size).1.1.drop k, err := (c.Read b.size).1.2 },
            (c.Read b.size).2)
      else ((b.buf.take k, none), { b with buf := b.buf.drop k }, c) := by
  unfold BufReader.Read BufReader.readErr
  rfl

theorem startTLSConn.Read_frame (s : startTLSConn) (k : Nat) :
    (s.Read k).2.conn.wscript = s.conn.wscript ∧
      (s.Read k).2.conn.written = s.conn.written ∧
      (s.Read k).2.br.size = s.br.size := by
  have h1 := Conn.Read_wscript s.conn k
  have h2 := Conn.Read_written s.conn k
  have h3 := Conn.Read_wscript s.conn s.br.size
  have h4 := Conn.Read_written s.conn s.br.size
  rw [startTLSConn.Read_eq, BufReader.Read_unfold]
  split
  · split <;> exact ⟨rfl, rfl, rfl⟩
  · split
    · split
      · exact ⟨rfl, rfl, rfl⟩
      · split
        · exact ⟨h1, h2, rfl⟩
        · split <;> exact ⟨h3, h4, rfl⟩
    · exact ⟨rfl, rfl, rfl⟩

/-- A read that finds bytes in the buffer takes them from the buffer and
leaves the connection alone. -/
theorem startTLSConn.Read_buffered (s : startTLSConn) (k : Nat) (hk : 0 < k)
    (hb : 0 < s.br.buf.length) :
    s.Read k = ((s.br.buf.take k, none),
      { br := { s.br with buf := s.br.buf.drop k }, conn := s.conn }) := by
  rw [startTLSConn.Read_eq, BufReader.Read_unfold, if_neg (by omega), if_neg (by omega)]

/-- A read of a regular wrapper with nothing left returns `io.EOF`. -/
theorem startTLSConn.Read_end (s : startTLSConn) (k : Nat) (hs : s.Regular)
    (hk : 0 < k) (h : s.content = []) : s.Read k = (([], some Err.EOF), s) := by
  obtain ⟨he, hsz, hpos, hc⟩ := hs
  unfold startTLSConn.content at h
  obtain ⟨hb, hbytes⟩ := List.append_eq_nil.mp h
  have hi := (Conn.bytes_nil_iff s.conn hc).mp hbytes
  rw [startTLSConn.Read_eq, BufReader.Read_unfold, if_neg (by omega),
    if_pos (by rw [hb]; rfl), if_neg (by simp [he]),
    Conn.Read_closed _ _ hi, Conn.Read_closed _ _ hi]
  obtain ⟨⟨buf, size, err⟩, c⟩ := s
  simp only at he
  subst he
  split
  · rfl
  · rfl

/-- A read of a regular wrapper with bytes left returns a non-empty prefix of
them without error, and the rest stays readable. -/
theorem startTLSConn.Read_more (s : startTLSConn) (k : Nat) (hs : s.Regular)
    (hk : 0 < k) (h : s.content ≠ []) :
    (s.Read k).1.2 = none ∧ (s.Read k).1.1 ≠ [] ∧
      (s.Read k).1.1 ++ (s.Read k).2.content = s.content ∧ (s.Read k).2.Regular := by
  obtain ⟨he, hsz, hpos, hc⟩ := hs
  by_cases hb : 0 < s.br.buf.length
  · rw [startTLSConn.Read_buffered s k hk hb]
    refine ⟨rfl, ?_, ?_, ⟨he, ?_, hpos, hc⟩⟩
    · intro h0
      have hlen := congrArg List.length h0
      rw [List.length_take] at hlen
      simp only [List.length_nil] at hlen
      omega
    · simp only [startTLSConn.content, ← List.append_assoc, List.take_append_drop]
    · simp only [List.length_drop]
      omega
  · have hnil : s.br.buf = [] := List.length_eq_zero.mp (by omega)
    have hbytes : s.conn.bytes ≠ [] := by
      intro h0
      apply h
      unfold startTLSConn.content
      rw [hnil, h0]; rfl
    have hi : s.conn.incoming ≠ [] := fun h0 =>
      hbytes ((Conn.bytes_nil_iff s.conn hc).mpr h0)
    have hcont : s.content = s.conn.bytes := by
      unfold startTLSConn.content
      rw [hnil]; rfl
    rw [startTLSConn.Read_eq, BufReader.Read_unfold, if_neg (by omega),
      if_pos (by omega), if_neg (by simp [he]), hcont]
    by_cases hbig : k ≥ s.br.size
    · rw [if_pos hbig]
      obtain ⟨h1, h2, h3, h4⟩ := Conn.Read_clean s.conn k hc hk hi
      refine ⟨h1, h2, ?_, ⟨rfl, ?_, hpos, h4⟩⟩
      · simp only [startTLSConn.content, hnil, List.nil_append]
        exact h3
      · simp only [hnil, List.length_nil]
        omega
    · rw [if_neg hbig]
      obtain ⟨h1, h2, h3, h4⟩ := Conn.Read_clean s.conn s.br.size hc hpos hi
      have h5 := Conn.Read_length s.conn s.br.size
      generalize s.conn.Read s.br.size = rc at h1 h2 h3 h4 h5 ⊢
      obtain ⟨⟨d, e⟩, c1⟩ := rc
      simp only at h1 h2 h3 h4 h5 ⊢
      have hdl : 0 < d.length := List.length_pos.mpr h2
      rw [if_neg (by omega)]
      refine ⟨rfl, ?_, ?_, ⟨h1, ?_, hpos, h4⟩⟩
      · intro h0
        have hlen := congrArg List.length h0
        rw [List.length_take] at hlen
        simp only [List.length_nil] at hlen
        omega
      · simp only [startTLSConn.content, ← List.append_assoc, List.take_append_drop]
        exact h3
      · simp only [List.length_drop]
        omega

/-- Reading a regular wrapper to its end, with a buffer of any size `k > 0`,
yields exactly its readable bytes and ends with `io.EOF`; more reads than
there are bytes left are never needed. -/
theorem startTLSConn.readAll_regular (k : Nat) (hk : 0 < k) (fuel : Nat)
    (s : startTLSConn) (hs : s.Regular) (hfuel : s.content.length < fuel) :
    startTLSConn.readAll k fuel s = some (s.content, Err.EOF) := by
  induction fuel generalizing s with
  | zero => omega
  | succ fuel ih =>
    unfold startTLSConn.readAll
    by_cases h : s.content = []
    · rw [startTLSConn.Read_end s k hs hk h, h]
    · obtain ⟨h1, h2, h3, h4⟩ := startTLSConn.Read_more s k hs hk h
      generalize s.Read k = rs at h1 h2 h3 h4 ⊢
      obtain ⟨⟨d, e⟩, s1⟩ := rs
      simp only at h1 h2 h3 h4 ⊢
      subst h1
      have hdl : 0 < d.length := List.length_pos.mpr h2
      have hlen : s1.content.length < fuel := by
        have := congrArg List.length h3
        rw [List.length_append] at this
        omega
      simp only [ih s1 h4 hlen, Option.map_some', h3]

/-- Reading a clean connection to its end without a wrapper yields exactly its
bytes and ends with `io.EOF`. -/
theorem Conn.readAll_clean (k : Nat) (hk : 0 < k) (fuel : Nat) (c : Conn)
    (hc : c.Clean) (hfuel : c.bytes.length < fuel) :
    Conn.readAll k fuel c = some (c.bytes, Err.EOF) := by
  induction fuel generalizing c with
  | zero => omega
  | succ fuel ih =>
    unfold Conn.readAll
    by_cases h : c.incoming = []
    · rw [Conn.Read_closed c k h, (Conn.bytes_nil_iff c hc).mpr h]
    · obtain ⟨h1, h2, h3, h4⟩ := Conn.Read_clean c k hc hk h
      generalize c.Read k = rc at h1 h2 h3 h4 ⊢
      obtain ⟨⟨d, e⟩, c1⟩ := rc
      simp only at h1 h2 h3 h4 ⊢
      subst h1
      have hdl : 0 < d.length := List.length_pos.mpr h2
      have hlen : c1.bytes.length < fuel := by
        have := congrArg List.length h3
        rw [List.length_append] at this
        omega
      simp only [ih c1 h4 hlen, Option.map_some', h3]

/-! ## The server side -/

theorem Conn.Write_incoming (c : Conn) (p : List Byte) :
    (c.Write p).2.incoming = c.incoming := by
  unfold Conn.Write
  split <;> rfl

/-- The outcome of a write depends on the write script and the log only. -/
theorem Conn.Write_congr (c1 c2 : Conn) (p : List Byte) (hw : c1.wscript = c2.wscript)
    (hl : c1.written = c2.written) :
    (c1.Write p).1 = (c2.Write p).1 ∧ (c1.Write p).2.written = (c2.Write p).2.written ∧
      (c1.Write p).2.wscript = (c2.Write p).2.wscript := by
  unfold Conn.Write
  rw [hw, hl]
  split <;> exact ⟨rfl, rfl, rfl⟩

theorem handleStartTLSHandshake_eq (conn : Conn) :
    handleStartTLSHandshake conn =
      match ((newStartTLSConn conn).Peek (postgresStartTLSMsg.length : Int)).1.2 with
      | some err => (((newStartTLSConn conn).Peek (postgresStartTLSMsg.length : Int)).2, some err)
      | none =>
        if ((newStartTLSConn conn).Peek (postgresStartTLSMsg.length : Int)).1.1
            ≠ postgresStartTLSMsg then
          (((newStartTLSConn conn).Peek (postgresStartTLSMsg.length : Int)).2, none)
        else
          ({ (((newStartTLSConn conn).Peek (postgresStartTLSMsg.length : Int)).2.Read
                ((newStartTLSConn conn).Peek
                  (postgresStartTLSMsg.length : Int)).1.1.length).2 with
              conn := ((((newStartTLSConn conn).Peek (postgresStartTLSMsg.length : Int)).2.Read
                ((newStartTLSConn conn).Peek
                  (postgresStartTLSMsg.length : Int)).1.1.length).2.conn.Write
                    postgresStartTLSReply).2 },
            ((((newStartTLSConn conn).Peek (postgresStartTLSMsg.length : Int)).2.Read
                ((newStartTLSConn conn).Peek
                  (postgresStartTLSMsg.length : Int)).1.1.length).2.conn.Write
                    postgresStartTLSReply).1.2) := by
  unfold handleStartTLSHandshake
  simp only
  split
  · rfl
  · split
    · rfl
    · split <;> simp_all

theorem newStartTLSConn_regular (c : Conn) (hc : c.Clean) : (newStartTLSConn c).Regular :=
  ⟨rfl, Nat.zero_le _, (by decide : 0 < 4096), hc⟩

theorem newStartTLSConn_content (c : Conn) : (newStartTLSConn c).content = c.bytes := rfl

/-- A stream that ends before eight bytes: the handshake returns `io.EOF` and
a wrapper that holds the bytes in its buffer. -/
theorem handle_short (c : Conn) (hc : c.Clean) (hlen : c.bytes.length < 8) :
    handleStartTLSHandshake c =
      ({ br := { buf := c.bytes, size := defaultBufSize, err := none },
         conn := { c with incoming := [] } }, some Err.EOF) := by
  have hp := startTLSConn.Peek_short (newStartTLSConn c) 8 (newStartTLSConn_regular c hc)
    (by decide : 8 ≤ 4096) (by rw [newStartTLSConn_content]; exact hlen)
  rw [handleStartTLSHandshake_eq]
  rw [show ((postgresStartTLSMsg.length : Nat) : Int) = ((8 : Nat) : Int) from rfl, hp]
  rfl

/-- A stream of at least eight bytes that does not start with the signature:
the handshake returns no error and a regular wrapper with all the bytes. -/
theorem handle_other (c : Conn) (hc : c.Clean) (hlen : 8 ≤ c.bytes.length)
    (hsig : c.bytes.take 8 ≠ postgresStartTLSMsg) :
    (handleStartTLSHandshake c).2 = none ∧ (handleStartTLSHandshake c).1.Regular ∧
      (handleStartTLSHandshake c).1.content = c.bytes ∧
      (handleStartTLSHandshake c).1.conn.written = c.written ∧
      (handleStartTLSHandshake c).1.conn.wscript = c.wscript := by
  have hp := startTLSConn.Peek_enough (newStartTLSConn c) 8 (newStartTLSConn_regular c hc)
    (by decide : 8 ≤ 4096) (by rw [newStartTLSConn_content]; exact hlen)
  have hf := startTLSConn.Peek_frame (newStartTLSConn c) ((8 : Nat) : Int)
  rw [handleStartTLSHandshake_eq]
  rw [show ((postgresStartTLSMsg.length : Nat) : Int) = ((8 : Nat) : Int) from rfl]
  generalize (newStartTLSConn c).Peek ((8 : Nat) : Int) = rs at hp hf ⊢
  obtain ⟨⟨p, e⟩, s1⟩ := rs
  simp only [Prod.mk.injEq, newStartTLSConn_content] at hp hf ⊢
  obtain ⟨⟨rfl, rfl⟩, hreg, hcont, -⟩ := hp
  simp only
  rw [if_pos hsig]
  exact ⟨rfl, hreg, hcont, hf.2.1, hf.1⟩

/-- A stream that starts with the signature: the eight bytes are consumed, the
reply is written, and the error is the one of that write. -/
theorem handle_match (c : Conn) (hc : c.Clean)
    (hsig : c.bytes.take 8 = postgresStartTLSMsg) :
    (handleStartTLSHandshake c).2 = (c.Write postgresStartTLSReply).1.2 ∧
      (handleStartTLSHandshake c).1.Regular ∧
      (handleStartTLSHandshake c).1.content = c.bytes.drop 8 ∧
      (handleStartTLSHandshake c).1.conn.written
        = (c.Write postgresStartTLSReply).2.written ∧
      (handleStartTLSHandshake c).1.conn.wscript
        = (c.Write postgresStartTLSReply).2.wscript := by
  have hlen : 8 ≤ c.bytes.length := by
    have := congrArg List.length hsig
    rw [List.length_take] at this
    simp only [postgresStartTLSMsg, List.length_cons, List.length_nil] at this
    omega
  have hp := startTLSConn.Peek_enough (newStartTLSConn c) 8 (newStartTLSConn_regular c hc)
    (by decide : 8 ≤ 4096) (by rw [newStartTLSConn_content]; exact hlen)
  have hf := startTLSConn.Peek_frame (newStartTLSConn c) ((8 : Nat) : Int)
  rw [handleStartTLSHandshake_eq]
  rw [show ((postgresStartTLSMsg.length : Nat) : Int) = ((8 : Nat) : Int) from rfl]
  generalize (newStartTLSConn c).Peek ((8 : Nat) : Int) = rs at hp hf ⊢
  obtain ⟨⟨p, e⟩, s1⟩ := rs
  simp only [Prod.mk.injEq, newStartTLSConn_content] at hp hf ⊢
  obtain ⟨⟨rfl, rfl⟩, hreg, hcont, hbuf⟩ := hp
  simp only
  rw [if_neg (by simpa using hsig), hsig]
  rw [show postgresStartTLSMsg.length = 8 from rfl,
    startTLSConn.Read_buffered s1 8 (by decide) (by omega)]
  simp only
  obtain ⟨h1, h2, h3⟩ := Conn.Write_congr s1.conn c postgresStartTLSReply hf.1 hf.2.1
  obtain ⟨he, hsz, hpos, hcl⟩ := hreg
  refine ⟨by rw [h1], ⟨he, ?_, hpos, ?_⟩, ?_, h2, h3⟩
  · simp only [List.length_drop]
    omega
  · unfold Conn.Clean
    rw [Conn.Write_incoming]
    exact hcl
  · unfold startTLSConn.content Conn.bytes at hcont ⊢
    simp only
    rw [Conn.Write_incoming, ← hcont, List.drop_append_of_le_length hbuf]

theorem Conn.Write_ok (c : Conn) (p : List Byte) (h : (c.Write p).1.2 = none) :
    (c.Write p).2.written = c.written ++ p := by
  unfold Conn.Write at h ⊢
  split <;> simp_all

/-- The outcome of the handshake on a clean connection, as a function of the
bytes it delivers and of the outcome of the write of the reply. -/
theorem handle_clean (c : Conn) (hc : c.Clean) :
    (handleStartTLSHandshake c).1.Regular ∧
      (handleStartTLSHandshake c).1.content
        = (if c.bytes.take 8 = postgresStartTLSMsg then c.bytes.drop 8 else c.bytes) ∧
      (handleStartTLSHandshake c).2
        = (if c.bytes.length < 8 then some Err.EOF
           else if c.bytes.take 8 = postgresStartTLSMsg then
             (c.Write postgresStartTLSReply).1.2
           else none) ∧
      (handleStartTLSHandshake c).1.conn.written
        = (if c.bytes.take 8 = postgresStartTLSMsg then
             (c.Write postgresStartTLSReply).2.written
           else c.written) := by
  by_cases hlen : c.bytes.length < 8
  · have hsig : c.bytes.take 8 ≠ postgresStartTLSMsg := by
      intro h
      have := congrArg List.length h
      rw [List.length_take] at this
      simp only [postgresStartTLSMsg, List.length_cons, List.length_nil] at this
      omega
    rw [handle_short c hc hlen]
    refine ⟨⟨rfl, ?_, (by decide : 0 < 4096), ?_⟩, ?_, ?_, ?_⟩
    · show c.bytes.length ≤ 4096
      omega
    · intro ev hev
      simp at hev
    · rw [if_neg hsig]
      simp [startTLSConn.content, Conn.bytes, delivered]
    · rw [if_pos hlen]
    · rw [if_neg hsig]
  · by_cases hsig : c.bytes.take 8 = postgresStartTLSMsg
    · obtain ⟨h1, h2, h3, h4, -⟩ := handle_match c hc hsig
      refine ⟨h2, ?_, ?_, ?_⟩
      · rw [if_pos hsig, h3]
      · rw [if_neg hlen, if_pos hsig, h1]
      · rw [if_pos hsig, h4]
    · obtain ⟨h1, h2, h3, h4, -⟩ := handle_other c hc (by omega) hsig
      refine ⟨h2, ?_, ?_, ?_⟩
      · rw [if_neg hsig, h3]
      · rw [if_neg hlen, if_neg hsig, h1]
      · rw [if_neg hsig, h4]

theorem Conn.ofChunks_clean (chunks : List (List Byte)) (ws : List WriteEvent)
    (hne : ∀ d ∈ chunks, d ≠ []) : (Conn.ofChunks chunks ws).Clean := by
  intro ev hev
  simp only [Conn.ofChunks, List.mem_map] at hev
  obtain ⟨d, hd, rfl⟩ := hev
  exact ⟨rfl, hne d hd⟩

theorem Conn.ofChunks_bytes (chunks : List (List Byte)) (ws : List WriteEvent) :
    (Conn.ofChunks chunks ws).bytes = chunks.flatten := by
  unfold Conn.bytes Conn.ofChunks
  simp only
  induction chunks with
  | nil => rfl
  | cons d rest ih => simp only [List.map_cons, delivered, List.flatten_cons, ih]

/-- On any connection, a peek of more bytes than the buffer holds fails with
`bufio.ErrBufferFull`. -/
theorem startTLSConn.Peek_too_large (s : startTLSConn) (n : Nat) (hn : s.br.size < n) :
    (s.Peek (n : Int)).1.2 = some Err.ErrBufferFull := by
  have hf := (BufReader.peekLoop_frame n n s.br s.conn).2.2
  rw [startTLSConn.Peek_eq, BufReader.Peek_unfold, if_pos (by rw [hf]; exact hn)]

/-- A peek of more bytes than the buffer holds, on a regular wrapper with at
least a buffer of bytes to read: the bytes returned are those of the full
buffer. -/
theorem startTLSConn.Peek_full (s : startTLSConn) (n : Nat) (hs : s.Regular)
    (hn : s.br.size < n) (hlen : s.br.size ≤ s.content.length) :
    (s.Peek (n : Int)).1 = (s.content.take s.br.size, some Err.ErrBufferFull) := by
  obtain ⟨he, hsz, hpos, hc⟩ := hs
  have hl := BufReader.peekLoop_clean n n s.br s.conn hc he hsz (by omega)
  have hf := (BufReader.peekLoop_frame n n s.br s.conn).2.2
  rw [startTLSConn.Peek_eq, BufReader.Peek_unfold, if_pos (by rw [hf]; exact hn)]
  unfold startTLSConn.content at hlen ⊢
  generalize BufReader.peekLoop n n s.br s.conn = bc at hl hf ⊢
  obtain ⟨b1, c1⟩ := bc
  simp only at hl hf ⊢
  obtain ⟨hbytes, hc1, hsz1, hexit⟩ := hl
  have hfull : b1.buf.length = s.br.size := by
    rcases hexit with ⟨-, h | h⟩ | ⟨-, hi, hlt⟩
    · omega
    · exact h
    · have hb : c1.bytes = [] := by unfold Conn.bytes; rw [hi]; rfl
      rw [hb, List.append_nil] at hbytes
      rw [← hbytes] at hlen
      omega
  rw [← hbytes, ← hfull, List.take_left']
  rfl

/-! ## The client side -/

theorem invokeStartTLSPostgresHandshake_eq (c : Conn) :
    invokeStartTLSPostgresHandshake c =
      match (c.Write postgresStartTLSMsg).1.2 with
      | some err => (some err, (c.Write postgresStartTLSMsg).2)
      | none =>
        match ((c.Write postgresStartTLSMsg).2.Read 1).1.2 with
        | some err => (some err, ((c.Write postgresStartTLSMsg).2.Read 1).2)
        | none =>
          if (stored [0] ((c.Write postgresStartTLSMsg).2.Read 1).1.1).headD 0 ≠ 83 then
            (some (Err.unexpectedResponse
                (stored [0] ((c.Write postgresStartTLSMsg).2.Read 1).1.1)),
              ((c.Write postgresStartTLSMsg).2.Read 1).2)
          else (none, ((c.Write postgresStartTLSMsg).2.Read 1).2) := by
  unfold invokeStartTLSPostgresHandshake
  generalize c.Write postgresStartTLSMsg = wc
  obtain ⟨⟨n, e0⟩, c1⟩ := wc
  cases e0 with
  | some err => rfl
  | none =>
    simp only [List.length_replicate]
    generalize c1.Read 1 = rc
    obtain ⟨⟨d, e1⟩, c2⟩ := rc
    cases e1 with
    | some err => rfl
    | none => rfl

/-- A read delivers its bytes from the front of what the connection has to
deliver, whatever the connection. -/
theorem Conn.Read_bytes (c : Conn) (k : Nat) :
    (c.Read k).1.1 ++ (c.Read k).2.bytes = c.bytes := by
  unfold Conn.Read Conn.bytes
  cases hi : c.incoming with
  | nil => simp [hi, delivered]
  | cons ev rest =>
    simp only
    split
    · simp [delivered]
    · simp [delivered, ← List.append_assoc]

/-- The text of the mismatch error for a byte `r`. -/
theorem Err.Error_unexpectedResponse (r : Byte) :
    (Err.unexpectedResponse [r]).Error
      = some ("Unexpected postgres starttls handshake response got "
          ++ ("[" ++ Nat.repr r ++ "]") ++ " want \x27S\x27 ") := by
  simp [Err.Error, fmtBytes, String.intercalate, String.intercalate.go]

/-- After a successful write of the signature, the initiator makes one read of
one byte, and its verdict is a function of the result of that read. -/
theorem invoke_write_ok (c : Conn) (hw : (c.Write postgresStartTLSMsg).1.2 = none) :
    (invokeStartTLSPostgresHandshake c).2 = ((c.Write postgresStartTLSMsg).2.Read 1).2 ∧
      (invokeStartTLSPostgresHandshake c).1 =
        match ((c.Write postgresStartTLSMsg).2.Read 1).1.2 with
        | some err => some err
        | none =>
          if (stored [0] ((c.Write postgresStartTLSMsg).2.Read 1).1.1).headD 0 ≠ 83 then
            some (Err.unexpectedResponse
              (stored [0] ((c.Write postgresStartTLSMsg).2.Read 1).1.1))
          else none := by
  rw [invokeStartTLSPostgresHandshake_eq, hw]
  simp only
  split
  · exact ⟨rfl, rfl⟩
  · split <;> exact ⟨rfl, rfl⟩

theorem Conn.Write_bytes (c : Conn) (p : List Byte) : (c.Write p).2.bytes = c.bytes := by
  unfold Conn.bytes
  rw [Conn.Write_incoming]

theorem Conn.Write_clean (c : Conn) (p : List Byte) (hc : c.Clean) : (c.Write p).2.Clean := by
  unfold Conn.Clean
  rw [Conn.Write_incoming]
  exact hc

/-! ## Peeks over any connection -/

theorem Conn.Read_err_mem (c : Conn) (k : Nat) (e : Err) (h : (c.Read k).1.2 = some e) :
    e = Err.EOF ∨ e ∈ c.readErrors := by
  unfold Conn.Read at h
  unfold Conn.readErrors
  cases hi : c.incoming with
  | nil =>
    rw [hi] at h
    simp only [Option.some.injEq] at h
    exact Or.inl h.symm
  | cons ev rest =>
    rw [hi] at h
    simp only at h
    split at h
    · right
      simp only [List.filterMap_cons]
      simp only at h
      rw [h]
      exact List.mem_cons_self _ _
    · simp at h

theorem Conn.Read_readErrors (c : Conn) (k : Nat) :
    ∀ e ∈ (c.Read k).2.readErrors, e ∈ c.readErrors := by
  intro e he
  obtain ⟨inc, ws, wr⟩ := c
  cases inc with
  | nil => exact he
  | cons ev rest =>
    unfold Conn.Read at he
    unfold Conn.readErrors at he ⊢
    simp only at he ⊢
    split at he
    · simp only at he
      rw [List.filterMap_cons]
      split
      · exact he
      · exact List.mem_cons_of_mem _ he
    · simpa [List.filterMap_cons] using he

/-- On any connection, `fill` keeps the bytes to be read, keeps the window
within the buffer, and ends with the error it started with or with an error
that has a cause: `io.ErrNoProgress`, `io.EOF`, or an error returned by a read
of the connection. -/
theorem BufReader.fillLoop_any (i : Nat) (b : BufReader) (c : Conn) :
    (BufReader.fillLoop i b c).1.buf ++ (BufReader.fillLoop i b c).2.bytes
        = b.buf ++ c.bytes ∧
      (b.buf.length ≤ b.size → (BufReader.fillLoop i b c).1.buf.length ≤ b.size) ∧
      (∀ e, (BufReader.fillLoop i b c).1.err = some e →
        b.err = some e ∨ e = Err.ErrNoProgress ∨ e = Err.EOF ∨ e ∈ c.readErrors) ∧
      (∀ e ∈ (BufReader.fillLoop i b c).2.readErrors, e ∈ c.readErrors) := by
  induction i generalizing b c with
  | zero =>
    refine ⟨rfl, fun h => h, ?_, fun e he => he⟩
    intro e he
    simp only [BufReader.fillLoop, Option.some.injEq] at he
    exact Or.inr (Or.inl he.symm)
  | succ i ih =>
    have hb := Conn.Read_bytes c (b.size - b.buf.length)
    have hl := Conn.Read_length c (b.size - b.buf.length)
    have he1 := Conn.Read_err_mem c (b.size - b.buf.length)
    have he2 := Conn.Read_readErrors c (b.size - b.buf.length)
    rw [BufReader.fillLoop_succ]
    generalize c.Read (b.size - b.buf.length) = rc at hb hl he1 he2 ⊢
    obtain ⟨⟨d, e1⟩, c1⟩ := rc
    simp only at hb hl he1 he2 ⊢
    have hcont : (b.buf ++ d) ++ c1.bytes = b.buf ++ c.bytes := by
      rw [List.append_assoc, hb]
    have hwin : b.buf.length ≤ b.size → (b.buf ++ d).length ≤ b.size := by
      intro h
      rw [List.length_append]
      omega
    cases e1 with
    | some err =>
      refine ⟨hcont, hwin, ?_, he2⟩
      intro e he
      simp only [Option.some.injEq] at he
      subst he
      rcases he1 err rfl with h | h
      · exact Or.inr (Or.inr (Or.inl h))
      · exact Or.inr (Or.inr (Or.inr h))
    | none =>
      simp only
      split
      · exact ⟨hcont, hwin, fun e he => Or.inl he, he2⟩
      · obtain ⟨h1, h2, h3, h4⟩ := ih { b with buf := b.buf ++ d } c1
        refine ⟨by rw [h1, hcont], fun h => h2 (hwin h), ?_, fun e he => he2 e (h4 e he)⟩
        intro e he
        rcases h3 e he with h | h | h | h
        · exact Or.inl h
        · exact Or.inr (Or.inl h)
        · exact Or.inr (Or.inr (Or.inl h))
        · exact Or.inr (Or.inr (Or.inr (he2 e h)))

/-- The same for the loop of `Peek`. -/
theorem BufReader.peekLoop_any (n fuel : Nat) (b : BufReader) (c : Conn) :
    (BufReader.peekLoop n fuel b c).1.buf ++ (BufReader.peekLoop n fuel b c).2.bytes
        = b.buf ++ c.bytes ∧
      (b.buf.length ≤ b.size → (BufReader.peekLoop n fuel b c).1.buf.length ≤ b.size) ∧
      (∀ e, (BufReader.peekLoop n fuel b c).1.err = some e →
        b.err = some e ∨ e = Err.ErrNoProgress ∨ e = Err.EOF ∨ e ∈ c.readErrors) ∧
      (∀ e ∈ (BufReader.peekLoop n fuel b c).2.readErrors, e ∈ c.readErrors) := by
  induction fuel generalizing b c with
  | zero => exact ⟨rfl, fun h => h, fun e he => Or.inl he, fun e he => he⟩
  | succ fuel ih =>
    rw [BufReader.peekLoop_succ]
    split
    · obtain ⟨f1, f2, f3, f4⟩ := BufReader.fillLoop_any maxConsecutiveEmptyReads b c
      have fsz := (BufReader.fill_frame b c).2.2
      change (b.fill c).1.buf ++ (b.fill c).2.bytes = b.buf ++ c.bytes at f1
      change b.buf.length ≤ b.size → (b.fill c).1.buf.length ≤ b.size at f2
      change ∀ e, (b.fill c).1.err = some e →
        b.err = some e ∨ e = Err.ErrNoProgress ∨ e = Err.EOF ∨ e ∈ c.readErrors at f3
      change ∀ e ∈ (b.fill c).2.readErrors, e ∈ c.readErrors at f4
      obtain ⟨h1, h2, h3, h4⟩ := ih (b.fill c).1 (b.fill c).2
      refine ⟨by rw [h1, f1], ?_, ?_, fun e he => f4 e (h4 e he)⟩
      · intro h
        have := h2 (by rw [fsz]; exact f2 h)
        rw [fsz] at this
        exact this
      · intro e he
        rcases h3 e he with h | h | h | h
        · exact f3 e h
        · exact Or.inr (Or.inl h)
        · exact Or.inr (Or.inr (Or.inl h))
        · exact Or.inr (Or.inr (Or.inr (f4 e h)))
    · exact ⟨rfl, fun h => h, fun e he => Or.inl he, fun e he => he⟩

/-- The outcomes of `Peek(n)` on any wrapper with a buffer of `size` bytes over
any connection: the bytes returned are a prefix of the bytes to be read, at
most `size` of them; with `n ≤ size` the peek succeeds with exactly the first
`n` bytes, or fails with fewer than `n` bytes and an error that was pending or
has a cause; with `n > size` it fails with `bufio.ErrBufferFull`. -/
theorem startTLSConn.Peek_any (s : startTLSConn) (n : Nat)
    (hwin : s.br.buf.length ≤ s.br.size) :
    (s.Peek (n : Int)).1.1 <+: s.content ∧
      (s.Peek (n : Int)).1.1.length ≤ s.br.size ∧
      (n ≤ s.br.size →
        ((s.Peek (n : Int)).1.2 = none ∧ (s.Peek (n : Int)).1.1 = s.content.take n ∧
            (s.Peek (n : Int)).1.1.length = n) ∨
          (∃ e, (s.Peek (n : Int)).1.2 = some e ∧ (s.Peek (n : Int)).1.1.length < n ∧
            (s.br.err = some e ∨ e = Err.ErrNoProgress ∨ e = Err.EOF ∨
              e ∈ s.conn.readErrors))) ∧
      (s.br.size < n → (s.Peek (n : Int)).1.2 = some Err.ErrBufferFull) := by
  obtain ⟨h1, h2, h3, -⟩ := BufReader.peekLoop_any n n s.br s.conn
  have hexit := BufReader.peekLoop_exit n n s.br s.conn (by omega)
  have hf := (BufReader.peekLoop_frame n n s.br s.conn).2.2
  have h2 := h2 hwin
  rw [startTLSConn.Peek_eq, BufReader.Peek_unfold]
  unfold startTLSConn.content
  generalize BufReader.peekLoop n n s.br s.conn = bc at h1 h2 h3 hexit hf ⊢
  obtain ⟨b1, c1⟩ := bc
  simp only at h1 h2 h3 hexit hf ⊢
  rw [hf] at hexit ⊢
  by_cases hbig : n > s.br.size
  · rw [if_pos hbig]
    refine ⟨⟨c1.bytes, h1⟩, h2, fun h => absurd h (by omega), fun _ => rfl⟩
  · rw [if_neg hbig]
    by_cases hshort : b1.buf.length < n
    · rw [if_pos hshort]
      cases he : b1.err with
      | none => exact absurd ⟨hshort, by omega, he⟩ hexit
      | some e =>
        simp only
        refine ⟨⟨c1.bytes, h1⟩, h2, fun _ => Or.inr ⟨e, rfl, hshort, h3 e he⟩,
          fun h => absurd h hbig⟩
    · rw [if_neg hshort]
      have htake : List.take n b1.buf = List.take n (s.br.buf ++ s.conn.bytes) := by
        rw [← h1, List.take_append_of_le_length (by omega)]
      have hlen : (List.take n b1.buf).length = n := by
        rw [List.length_take]
        omega
      refine ⟨?_, by rw [hlen]; omega, fun _ => Or.inl ⟨rfl, htake, hlen⟩,
        fun h => absurd h hbig⟩
      simp only
      rw [htake]
      exact List.take_prefix _ _

/-- A peek on a reader with a pending error makes no read: it answers from the
buffer, and reports and clears the pending error when the buffer is short. -/
theorem startTLSConn.Peek_pending (s : startTLSConn) (n : Nat) (e0 : Err)
    (he : s.br.err = some e0) :
    s.Peek (n : Int) =
      if n > s.br.size then ((s.br.buf, some Err.ErrBufferFull), s)
      else if s.br.buf.length < n then
        ((s.br.buf, some e0), { s with br := { s.br with err := none } })
      else ((s.br.buf.take n, none), s) := by
  rw [startTLSConn.Peek_eq, BufReader.Peek_unfold,
    BufReader.peekLoop_err n n s.br s.conn (by rw [he]; simp)]
  simp only
  split
  · rfl
  · split
    · rw [he]
    · rfl

/-! ## Wrappers at rest over an error-free stream -/

theorem Steady_cases (s : startTLSConn) (hs : s.Steady) :
    s.Regular ∨ (s.br.err = some Err.EOF ∧ s.conn.incoming = []) := by
  obtain ⟨hsize, hwin, hc, he | he⟩ := hs
  · exact Or.inl ⟨he, hwin, by rw [hsize]; decide, hc⟩
  · exact Or.inr he

theorem Regular_steady (s : startTLSConn) (hr : s.Regular)
    (hsize : s.br.size = defaultBufSize) : s.Steady :=
  ⟨hsize, hr.2.1, hr.2.2.2, Or.inl hr.1⟩

/-- A fresh wrapper over an error-free stream is at rest. -/
theorem Steady_new (c : Conn) (hc : c.Clean) : (newStartTLSConn c).Steady :=
  ⟨rfl, Nat.zero_le _, hc, Or.inl rfl⟩

/-- A peek keeps a wrapper at rest and keeps the bytes to be read. -/
theorem Steady_Peek (s : startTLSConn) (n : Int) (hs : s.Steady) :
    (s.Peek n).2.Steady ∧ (s.Peek n).2.content = s.content := by
  by_cases hn : n < 0
  · rw [startTLSConn.Peek_eq]
    unfold BufReader.Peek
    rw [if_pos hn]
    exact ⟨hs, rfl⟩
  obtain ⟨m, rfl⟩ := Int.eq_ofNat_of_zero_le (by omega : 0 ≤ n)
  have hsize := hs.1
  rcases Steady_cases s hs with hr | ⟨he, hi⟩
  · obtain ⟨he, hsz, hpos, hc⟩ := hr
    have hl := BufReader.peekLoop_clean m m s.br s.conn hc he hsz (by omega)
    have hf := (BufReader.peekLoop_frame m m s.br s.conn).2.2
    rw [startTLSConn.Peek_eq, BufReader.Peek_unfold]
    unfold startTLSConn.content startTLSConn.Steady
    generalize BufReader.peekLoop m m s.br s.conn = bc at hl hf ⊢
    obtain ⟨b1, c1⟩ := bc
    simp only at hl hf ⊢
    obtain ⟨hbytes, hc1, hsz1, hexit⟩ := hl
    have herr : b1.err = none ∨ (b1.err = some Err.EOF ∧ c1.incoming = []) := by
      rcases hexit with ⟨h, -⟩ | ⟨h1, h2, -⟩
      · exact Or.inl h
      · exact Or.inr ⟨h1, h2⟩
    have hsz2 : b1.buf.length ≤ b1.size := by rw [hf]; exact hsz1
    have hsize1 : b1.size = defaultBufSize := by rw [hf]; exact hsize
    split
    · exact ⟨⟨hsize1, hsz2, hc1, herr⟩, hbytes⟩
    · split
      · split <;> exact ⟨⟨hsize1, hsz2, hc1, Or.inl rfl⟩, hbytes⟩
      · exact ⟨⟨hsize1, hsz2, hc1, herr⟩, hbytes⟩
  · rw [startTLSConn.Peek_pending s m Err.EOF he]
    split
    · exact ⟨hs, rfl⟩
    · split
      · exact ⟨⟨hs.1, hs.2.1, hs.2.2.1, Or.inl rfl⟩, rfl⟩
      · exact ⟨hs, rfl⟩

/-- A read keeps a wrapper at rest. -/
theorem Steady_Read (s : startTLSConn) (k : Nat) (hs : s.Steady) : (s.Read k).2.Steady := by
  have hsize := hs.1
  rcases Steady_cases s hs with hr | ⟨he, hi⟩
  · by_cases hk : k = 0
    · subst hk
      rw [startTLSConn.Read_eq, BufReader.Read_unfold, if_pos rfl]
      split
      · exact hs
      · exact ⟨hs.1, hs.2.1, hs.2.2.1, Or.inl rfl⟩
    · have hf := (startTLSConn.Read_frame s k).2.2
      by_cases hcont : s.content = []
      · rw [startTLSConn.Read_end s k hr (by omega) hcont]
        exact hs
      · exact Regular_steady _ (startTLSConn.Read_more s k hr (by omega) hcont).2.2.2
          (by rw [hf]; exact hsize)
  · rw [startTLSConn.Read_eq, BufReader.Read_unfold]
    split
    · split
      · exact hs
      · exact ⟨hs.1, hs.2.1, hs.2.2.1, Or.inl rfl⟩
    · split
      · rw [if_pos (by rw [he]; simp)]
        exact ⟨hs.1, hs.2.1, hs.2.2.1, Or.inl rfl⟩
      · refine ⟨hs.1, ?_, hs.2.2.1, Or.inr ⟨he, hi⟩⟩
        simp only [List.length_drop]
        have := hs.2.1
        omega

/-- A write keeps a wrapper at rest. -/
theorem Steady_Write (s : startTLSConn) (p : List Byte) (hs : s.Steady) :
    (s.Write p).2.Steady := by
  obtain ⟨hsize, hwin, hc, he⟩ := hs
  have hinc := Conn.Write_incoming s.conn p
  refine ⟨hsize, hwin, Conn.Write_clean s.conn p hc, ?_⟩
  rcases he with he | ⟨he, hi⟩
  · exact Or.inl he
  · exact Or.inr ⟨he, by
      show (s.conn.Write p).2.incoming = []
      rw [hinc, hi]⟩

/-- A peek within the buffer size on a wrapper at rest: it succeeds with the
first `n` bytes when that many are left, and otherwise fails with `io.EOF`,
returns all the bytes left and keeps them in the buffer. -/
theorem Steady_Peek_outcome (s : startTLSConn) (n : Nat) (hs : s.Steady)
    (hn : n ≤ defaultBufSize) :
    (n ≤ s.content.length → (s.Peek (n : Int)).1 = (s.content.take n, none)) ∧
      (s.content.length < n →
        s.Peek (n : Int) = ((s.content, some Err.EOF),
          { br := { buf := s.content, size := s.br.size, err := none },
            conn := { s.conn with incoming := [] } })) := by
  have hn2 : n ≤ s.br.size := by rw [hs.1]; exact hn
  rcases Steady_cases s hs with hr | ⟨he, hi⟩
  · exact ⟨fun h => (startTLSConn.Peek_enough s n hr hn2 h).1,
      fun h => startTLSConn.Peek_short s n hr hn2 h⟩
  · have hcont : s.content = s.br.buf := by
      unfold startTLSConn.content Conn.bytes
      rw [hi]
      exact List.append_nil _
    rw [startTLSConn.Peek_pending s n Err.EOF he, if_neg (by omega), hcont]
    constructor
    · intro h
      rw [if_neg (by omega)]
    · intro h
      rw [if_pos h]
      obtain ⟨⟨buf, size, err⟩, ⟨inc, ws, wr⟩⟩ := s
      simp only at hi
      subst hi
      rfl

/-- A peek beyond the buffer size on a wrapper at rest with at least a buffer
of bytes left returns the first bytes, as many as the buffer holds. -/
theorem Steady_Peek_full (s : startTLSConn) (n : Nat) (hs : s.Steady)
    (hn : defaultBufSize < n) (hlen : defaultBufSize ≤ s.content.length) :
    (s.Peek (n : Int)).1 = (s.content.take defaultBufSize, some Err.ErrBufferFull) := by
  have hsize := hs.1
  rcases Steady_cases s hs with hr | ⟨he, hi⟩
  · rw [startTLSConn.Peek_full s n hr (by rw [hsize]; exact hn) (by rw [hsize]; exact hlen),
      hsize]
  · have hcont : s.content = s.br.buf := by
      unfold startTLSConn.content Conn.bytes
      rw [hi]
      exact List.append_nil _
    have hwin := hs.2.1
    rw [startTLSConn.Peek_pending s n Err.EOF he, if_pos (by rw [hsize]; exact hn), hcont,
      List.take_of_length_le (by rw [← hsize]; exact hwin)]

/-- Over any connection, a peek keeps the size of the buffer and keeps the
window within it. -/
theorem window_Peek (s : startTLSConn) (n : Int) (hwin : s.br.buf.length ≤ s.br.size) :
    (s.Peek n).2.br.size = s.br.size ∧
      (s.Peek n).2.br.buf.length ≤ (s.Peek n).2.br.size := by
  have hsz := (startTLSConn.Peek_frame s n).2.2
  refine ⟨hsz, ?_⟩
  rw [hsz]
  by_cases hn : n < 0
  · rw [startTLSConn.Peek_eq]
    unfold BufReader.Peek
    rw [if_pos hn]
    exact hwin
  obtain ⟨m, rfl⟩ := Int.eq_ofNat_of_zero_le (by omega : 0 ≤ n)
  have h2 := (BufReader.peekLoop_any m m s.br s.conn).2.1 hwin
  rw [startTLSConn.Peek_eq, BufReader.Peek_unfold]
  generalize BufReader.peekLoop m m s.br s.conn = bc at h2 ⊢
  obtain ⟨b1, c1⟩ := bc
  simp only at h2 ⊢
  split
  · exact h2
  · split
    · split <;> exact h2
    · exact h2

/-- Over any connection, a read keeps the size of the buffer and keeps the
window within it. -/
theorem window_Read (s : startTLSConn) (k : Nat) (hwin : s.br.buf.length ≤ s.br.size) :
    (s.Read k).2.br.size = s.br.size ∧
      (s.Read k).2.br.buf.length ≤ (s.Read k).2.br.size := by
  have hsz := (startTLSConn.Read_frame s k).2.2
  refine ⟨hsz, ?_⟩
  rw [hsz]
  have hl := Conn.Read_length s.conn s.br.size
  rw [startTLSConn.Read_eq, BufReader.Read_unfold]
  split
  · split <;> exact hwin
  · split
    · split
      · exact hwin
      · split
        · exact hwin
        · split
          · exact hwin
          · simp only [List.length_drop]
            omega
    · simp only [List.length_drop]
      omega

/-! ## The claims -/

/-- C1 (match case): if the connection delivers, in non-empty chunks of any
sizes, a byte sequence `B` of at least eight bytes that starts with
`postgresStartTLSMsg`, and the write of the reply succeeds, then
`handleStartTLSHandshake` returns no error, the only byte it writes is `0x53`,
and reading the returned wrapper to its end yields exactly `B[8:]`. -/
theorem handleStartTLSHandshake_match (c : Conn) (B : List Byte) (hc : c.Clean)
    (hB : c.bytes = B) (hlen : 8 ≤ B.length) (hsig : B.take 8 = postgresStartTLSMsg)
    (hw : (c.Write postgresStartTLSReply).1.2 = none) :
    (handleStartTLSHandshake c).2 = none ∧
      (handleStartTLSHandshake c).1.conn.written = c.written ++ [0x53] ∧
      ∀ k fuel, 0 < k → B.length - 8 < fuel →
        (handleStartTLSHandshake c).1.readAll k fuel = some (B.drop 8, Err.EOF) := by
  subst hB
  obtain ⟨h1, h2, h3, h4, -⟩ := handle_match c hc hsig
  refine ⟨by rw [h1, hw], ?_, ?_⟩
  · rw [h4, Conn.Write_ok c _ hw]; rfl
  · intro k fuel hk hfuel
    rw [← h3]
    apply startTLSConn.readAll_regular k hk fuel _ h2
    rw [h3, List.length_drop]
    exact hfuel

/-- The signature followed by `Hello`, delivered in three chunks: the reply
`0x53` is written and `Hello` stays readable. -/
theorem handleStartTLSHandshake_match_witness :
    (handleStartTLSHandshake
        (Conn.ofChunks [[0, 0, 0], [8, 4, 210, 22, 47, 72], [101, 108, 108, 111]] [])).2
        = none ∧
      (handleStartTLSHandshake
        (Conn.ofChunks [[0, 0, 0], [8, 4, 210, 22, 47, 72], [101, 108, 108, 111]] [])).1.conn.written
        = [0x53] ∧
      (handleStartTLSHandshake
        (Conn.ofChunks [[0, 0, 0], [8, 4, 210, 22, 47, 72], [101, 108, 108, 111]] [])).1.readAll 2 6
        = some ([72, 101, 108, 108, 111], Err.EOF) :=
  have h := handleStartTLSHandshake_match
    (Conn.ofChunks [[0, 0, 0], [8, 4, 210, 22, 47, 72], [101, 108, 108, 111]] [])
    [0, 0, 0, 8, 4, 210, 22, 47, 72, 101, 108, 108, 111]
    (by decide) (by decide) (by decide) (by decide) (by decide)
  ⟨h.1, h.2.1, h.2.2 2 6 (by decide) (by decide)⟩

/-- C2 (passthrough): if the connection delivers, in non-empty chunks of any
sizes, a byte sequence `B` of at least eight bytes whose first eight bytes are
not `postgresStartTLSMsg`, then `handleStartTLSHandshake` returns no error,
writes nothing, and reading the returned wrapper to its end yields exactly `B`. -/
theorem handleStartTLSHandshake_passthrough (c : Conn) (B : List Byte) (hc : c.Clean)
    (hB : c.bytes = B) (hlen : 8 ≤ B.length) (hsig : B.take 8 ≠ postgresStartTLSMsg) :
    (handleStartTLSHandshake c).2 = none ∧
      (handleStartTLSHandshake c).1.conn.written = c.written ∧
      ∀ k fuel, 0 < k → B.length < fuel →
        (handleStartTLSHandshake c).1.readAll k fuel = some (B, Err.EOF) := by
  subst hB
  obtain ⟨h1, h2, h3, h4, -⟩ := handle_other c hc hlen hsig
  refine ⟨h1, h4, ?_⟩
  intro k fuel hk hfuel
  rw [← h3]
  apply startTLSConn.readAll_regular k hk fuel _ h2
  rw [h3]
  exact hfuel

/-- Nine bytes that differ from the signature in the last position only,
delivered in two chunks, come back unchanged and nothing is written. -/
theorem handleStartTLSHandshake_passthrough_witness :
    (handleStartTLSHandshake
        (Conn.ofChunks [[0, 0, 0, 8, 4], [210, 22, 48, 7]] [])).2 = none ∧
      (handleStartTLSHandshake
        (Conn.ofChunks [[0, 0, 0, 8, 4], [210, 22, 48, 7]] [])).1.conn.written = [] ∧
      (handleStartTLSHandshake
        (Conn.ofChunks [[0, 0, 0, 8, 4], [210, 22, 48, 7]] [])).1.readAll 4 10
        = some ([0, 0, 0, 8, 4, 210, 22, 48, 7], Err.EOF) :=
  have h := handleStartTLSHandshake_passthrough
    (Conn.ofChunks [[0, 0, 0, 8, 4], [210, 22, 48, 7]] [])
    [0, 0, 0, 8, 4, 210, 22, 48, 7]
    (by decide) (by decide) (by decide) (by decide)
  ⟨h.1, h.2.1, h.2.2 4 10 (by decide) (by decide)⟩

/-- C3 (short stream): if the connection delivers fewer than eight bytes, in
non-empty chunks of any sizes, and is then closed, `handleStartTLSHandshake`
returns `io.EOF` (never `nil`) together with the wrapper, which holds the
bytes in its buffer, and writes nothing. -/
theorem handleStartTLSHandshake_short (c : Conn) (B : List Byte) (hc : c.Clean)
    (hB : c.bytes = B) (hlen : B.length < 8) :
    handleStartTLSHandshake c =
        ({ br := { buf := B, size := defaultBufSize, err := none },
           conn := { c with incoming := [] } }, some Err.EOF) ∧
      (handleStartTLSHandshake c).2 ≠ none ∧
      (handleStartTLSHandshake c).1.conn.written = c.written := by
  subst hB
  have h := handle_short c hc hlen
  rw [h]
  exact ⟨rfl, by simp, rfl⟩

/-- The five bytes of `Hello`, after which the stream closes: the result is
`io.EOF` and nothing is written. -/
theorem handleStartTLSHandshake_short_witness :
    (handleStartTLSHandshake (Conn.ofChunks [[72, 101, 108, 108, 111]] [])).2
        = some Err.EOF ∧
      (handleStartTLSHandshake (Conn.ofChunks [[72, 101, 108, 108, 111]] [])).1.conn.written
        = [] :=
  have h := handleStartTLSHandshake_short (Conn.ofChunks [[72, 101, 108, 108, 111]] [])
    [72, 101, 108, 108, 111] (by decide) (by decide) (by decide)
  ⟨congrArg Prod.snd h.1, h.2.2⟩

/-- C4 (initiator verdict): if the write of the signature succeeds and the read
delivers one byte `r` without error, `invokeStartTLSPostgresHandshake` returns
`nil` exactly when `r = 0x53`, and for every other `r` it returns the mismatch
error built from the byte read. -/
theorem invokeStartTLSPostgresHandshake_verdict (c : Conn) (r : Byte)
    (hw : (c.Write postgresStartTLSMsg).1.2 = none)
    (hr : ((c.Write postgresStartTLSMsg).2.Read 1).1 = ([r], none)) :
    ((invokeStartTLSPostgresHandshake c).1 = none ↔ r = 0x53) ∧
      (r ≠ 0x53 →
        (invokeStartTLSPostgresHandshake c).1 = some (Err.unexpectedResponse [r])) := by
  unfold invokeStartTLSPostgresHandshake
  generalize c.Write postgresStartTLSMsg = wc at hw hr ⊢
  obtain ⟨⟨n, e⟩, c1⟩ := wc
  simp only at hw hr ⊢
  subst hw
  simp only [List.length_replicate]
  generalize c1.Read 1 = rc at hr ⊢
  obtain ⟨⟨d, e⟩, c2⟩ := rc
  simp only [Prod.mk.injEq] at hr ⊢
  obtain ⟨rfl, rfl⟩ := hr
  simp only [stored, postgresStartTLSReply, List.length_cons, List.length_nil,
    List.replicate, List.drop, List.append_nil, List.headD_cons]
  by_cases h : r = 83
  · subst h
    simp
  · simp [h]

/-- A server that answers `0x00` to the signature: the initiator reports the
mismatch. -/
theorem invokeStartTLSPostgresHandshake_verdict_witness :
    ((invokeStartTLSPostgresHandshake (Conn.ofChunks [[0]] [])).1 = none ↔ 0 = 0x53) ∧
      (invokeStartTLSPostgresHandshake (Conn.ofChunks [[0]] [])).1
        = some (Err.unexpectedResponse [0]) :=
  have h := invokeStartTLSPostgresHandshake_verdict (Conn.ofChunks [[0]] []) 0
    (by decide) (by decide)
  ⟨h.1, h.2 (by decide)⟩

/-- C5 (signature table): `postgresStartTLSMsg` has eight bytes, the big-endian
32-bit encodings of 8 and of 80877103, that is `00 00 00 08 04 D2 16 2F`, and
`postgresStartTLSReply` is the single byte `0x53`, the letter `S`. -/
theorem postgresStartTLS_table :
    postgresStartTLSMsg.length = 8 ∧
      postgresStartTLSMsg = be32 8 ++ be32 80877103 ∧
      postgresStartTLSMsg = [0x00, 0x00, 0x00, 0x08, 0x04, 0xD2, 0x16, 0x2F] ∧
      4 * 2 ^ 24 + 210 * 2 ^ 16 + 22 * 2 ^ 8 + 47 = 80877103 ∧
      postgresStartTLSReply = [0x53] ∧
      postgresStartTLSReply = ['S'.toNat] := by
  decide

/-- C6 (peek does not consume): if `Peek(n)` on a fresh wrapper over a
connection that delivers the byte sequence `B` (in non-empty chunks of any
sizes) succeeds with bytes `P`, then `P` is `B[0:n]`, and reading the wrapper
to its end afterwards yields the whole of `B`, which starts with `P`, exactly
as reading the connection without a wrapper does. -/
theorem Peek_does_not_consume (c : Conn) (hc : c.Clean) (n : Int) (P : List Byte)
    (s : startTLSConn) (h : (newStartTLSConn c).Peek n = ((P, none), s)) :
    P = c.bytes.take n.toNat ∧ P.length = n.toNat ∧ P <+: c.bytes ∧
      ∀ k fuel, 0 < k → c.bytes.length < fuel →
        s.readAll k fuel = some (c.bytes, Err.EOF) ∧
          s.readAll k fuel = Conn.readAll k fuel c := by
  have hreg := newStartTLSConn_regular c hc
  by_cases hn : n < 0
  · rw [startTLSConn.Peek_eq] at h
    unfold BufReader.Peek at h
    rw [if_pos hn] at h
    simp at h
  obtain ⟨m, rfl⟩ := Int.eq_ofNat_of_zero_le (by omega : 0 ≤ n)
  have hm : m ≤ 4096 := by
    by_contra hgt
    have hf := (BufReader.peekLoop_frame m m (newStartTLSConn c).br (newStartTLSConn c).conn).2.2
    rw [startTLSConn.Peek_eq, BufReader.Peek_unfold, if_pos (by rw [hf]; show m > 4096; omega)] at h
    simp at h
  have hlen : m ≤ c.bytes.length := by
    by_contra hlt
    rw [startTLSConn.Peek_short _ m hreg hm
      (by rw [newStartTLSConn_content]; omega)] at h
    simp at h
  obtain ⟨h1, h2, h3, h4⟩ := startTLSConn.Peek_enough _ m hreg hm
    (by rw [newStartTLSConn_content]; exact hlen)
  rw [h, newStartTLSConn_content] at h1 h3
  simp only [Prod.mk.injEq, and_true] at h1
  rw [h] at h2
  simp only at h2 h3
  subst h1
  refine ⟨rfl, ?_, List.take_prefix _ _, ?_⟩
  · simp only [Int.toNat_ofNat, List.length_take]
    omega
  · intro k fuel hk hfuel
    rw [Conn.readAll_clean k hk fuel c hc hfuel, ← h3]
    exact ⟨startTLSConn.readAll_regular k hk fuel s h2 (by rw [h3]; exact hfuel),
      startTLSConn.readAll_regular k hk fuel s h2 (by rw [h3]; exact hfuel)⟩

/-- Peeking three bytes of a five-byte stream delivered in two chunks returns
the first three, and all five are read afterwards. -/
theorem Peek_does_not_consume_witness :
    ([72, 101, 108] : List Byte) = List.take 3 [72, 101, 108, 108, 111] ∧
      ((newStartTLSConn (Conn.ofChunks [[72, 101], [108, 108, 111]] [])).Peek 3).2.readAll 2 6
        = some ([72, 101, 108, 108, 111], Err.EOF) :=
  have h := Peek_does_not_consume (Conn.ofChunks [[72, 101], [108, 108, 111]] [])
    (by decide) 3 [72, 101, 108]
    ((newStartTLSConn (Conn.ofChunks [[72, 101], [108, 108, 111]] [])).Peek 3).2 (by decide)
  ⟨h.1, (h.2.2.2 2 6 (by decide) (by decide)).1⟩

/-- C7, as the code has it (peek is idempotent): a second `Peek(8)` right
after the first, with no `Read` in between, returns the same result (the same
bytes and the same error) and leaves the wrapper exactly as the first call
left it, in two cases.  First, on any wrapper over any connection, when the
first call succeeds.  Second, on any wrapper at rest over a stream that
delivers its bytes without read errors and is then closed, where a failing
first call fails with `io.EOF` and the closed connection answers `io.EOF`
again; the wrappers at rest are the fresh wrappers over such a stream and all
that `Peek`, `Read` and `Write` make of them. -/
theorem Peek_idempotent :
    (∀ s : startTLSConn, (s.Peek 8).1.2 = none → (s.Peek 8).2.Peek 8 = s.Peek 8) ∧
      (∀ s : startTLSConn, s.Steady → (s.Peek 8).2.Peek 8 = s.Peek 8) ∧
      (∀ c : Conn, c.Clean → (newStartTLSConn c).Steady) ∧
      (∀ (s : startTLSConn) (n : Int), s.Steady → (s.Peek n).2.Steady) ∧
      (∀ (s : startTLSConn) (k : Nat), s.Steady → (s.Read k).2.Steady) ∧
      (∀ (s : startTLSConn) (p : List Byte), s.Steady → (s.Write p).2.Steady) := by
  have hsucc : ∀ s : startTLSConn, (s.Peek 8).1.2 = none → (s.Peek 8).2.Peek 8 = s.Peek 8 :=
    fun s h => startTLSConn.Peek_again s 8 h
  refine ⟨hsucc, ?_, Steady_new, fun s n hs => (Steady_Peek s n hs).1, Steady_Read,
    Steady_Write⟩
  intro s hs
  obtain ⟨hok, hshort⟩ := Steady_Peek_outcome s 8 hs (by decide)
  by_cases hlen : 8 ≤ s.content.length
  · apply hsucc
    show (s.Peek ((8 : Nat) : Int)).1.2 = none
    rw [hok hlen]
  · have h1 := hshort (by omega)
    have hs1 := (Steady_Peek s ((8 : Nat) : Int) hs).1
    have hc1 := (Steady_Peek s ((8 : Nat) : Int) hs).2
    obtain ⟨-, hshort1⟩ := Steady_Peek_outcome (s.Peek ((8 : Nat) : Int)).2 8 hs1 (by decide)
    have h2 := hshort1 (by rw [hc1]; omega)
    rw [hc1] at h2
    show (s.Peek ((8 : Nat) : Int)).2.Peek ((8 : Nat) : Int) = s.Peek ((8 : Nat) : Int)
    rw [h2]
    rw [h1]

/-- Two peeks in a row on a wrapper that has already read two bytes of a
five-byte stream, where both fail with `io.EOF`, and on a fresh wrapper over a
nine-byte stream, where both succeed. -/
theorem Peek_idempotent_witness :
    ((((newStartTLSConn (Conn.ofChunks [[72, 101], [108, 108, 111]] [])).Read 2).2).Peek 8).2.Peek 8
        = (((newStartTLSConn (Conn.ofChunks [[72, 101], [108, 108, 111]] [])).Read 2).2).Peek 8 ∧
      ((newStartTLSConn (Conn.ofChunks [[1, 2, 3, 4, 5], [6, 7, 8, 9]] [])).Peek 8).2.Peek 8
        = (newStartTLSConn (Conn.ofChunks [[1, 2, 3, 4, 5], [6, 7, 8, 9]] [])).Peek 8 :=
  ⟨Peek_idempotent.2.1
      ((newStartTLSConn (Conn.ofChunks [[72, 101], [108, 108, 111]] [])).Read 2).2
      (Peek_idempotent.2.2.2.2.1 _ 2 (Peek_idempotent.2.2.1 _ (by decide))),
    Peek_idempotent.1 (newStartTLSConn (Conn.ofChunks [[1, 2, 3, 4, 5], [6, 7, 8, 9]] []))
      (by decide)⟩

/-- C7 as stated fails: on a connection whose reads deliver two bytes, then a
transport error, then seven more bytes, the first `Peek(8)` on a fresh wrapper
returns the two bytes with the error, and the second `Peek(8)`, with no `Read`
in between, returns eight bytes and no error. -/
theorem Peek_idempotent_counterexample :
    ((newStartTLSConn
          { incoming := [{ data := [1, 2], err := none },
              { data := [], err := some (Err.transport 110) },
              { data := [3, 4, 5, 6, 7, 8, 9], err := none }],
            wscript := [], written := [] }).Peek 8).1
        = ([1, 2], some (Err.transport 110)) ∧
      (((newStartTLSConn
          { incoming := [{ data := [1, 2], err := none },
              { data := [], err := some (Err.transport 110) },
              { data := [3, 4, 5, 6, 7, 8, 9], err := none }],
            wscript := [], written := [] }).Peek 8).2.Peek 8).1
        = ([1, 2, 3, 4, 5, 6, 7, 8], none) ∧
      (((newStartTLSConn
          { incoming := [{ data := [1, 2], err := none },
              { data := [], err := some (Err.transport 110) },
              { data := [3, 4, 5, 6, 7, 8, 9], err := none }],
            wscript := [], written := [] }).Peek 8).2.Peek 8).1
        ≠ ((newStartTLSConn
          { incoming := [{ data := [1, 2], err := none },
              { data := [], err := some (Err.transport 110) },
              { data := [3, 4, 5, 6, 7, 8, 9], err := none }],
            wscript := [], written := [] }).Peek 8).1 := by
  decide

/-- C8 (independence from chunking): however a byte sequence is split into
non-empty chunks delivered by successive reads of the connection,
`handleStartTLSHandshake` returns the same error, has written the same bytes
and leaves the same bytes readable through the wrapper as when the whole
sequence is delivered by a single read.  In particular, a sequence that starts
with the signature takes the match path (the eight bytes are consumed) even
when the first read delivers fewer than eight bytes. -/
theorem handleStartTLSHandshake_chunking (chunks : List (List Byte))
    (ws : List WriteEvent) (hne : ∀ d ∈ chunks, d ≠ []) :
    (handleStartTLSHandshake (Conn.ofChunks chunks ws)).2
        = (handleStartTLSHandshake (Conn.ofChunks [chunks.flatten] ws)).2 ∧
      (handleStartTLSHandshake (Conn.ofChunks chunks ws)).1.conn.written
        = (handleStartTLSHandshake (Conn.ofChunks [chunks.flatten] ws)).1.conn.written ∧
      (∀ k fuel, 0 < k → chunks.flatten.length < fuel →
        (handleStartTLSHandshake (Conn.ofChunks chunks ws)).1.readAll k fuel
          = (handleStartTLSHandshake (Conn.ofChunks [chunks.flatten] ws)).1.readAll k fuel ∧
        ∃ rest, (handleStartTLSHandshake (Conn.ofChunks chunks ws)).1.readAll k fuel
          = some (rest, Err.EOF)) ∧
      (chunks.flatten.take 8 = postgresStartTLSMsg →
        ∀ k fuel, 0 < k → chunks.flatten.length < fuel →
          (handleStartTLSHandshake (Conn.ofChunks chunks ws)).1.readAll k fuel
            = some (chunks.flatten.drop 8, Err.EOF)) := by
  have hc1 := Conn.ofChunks_clean chunks ws hne
  have hb1 := Conn.ofChunks_bytes chunks ws
  obtain ⟨hr1, hcont1, herr1, hwr1⟩ := handle_clean _ hc1
  rw [hb1] at hcont1 herr1 hwr1
  have hlen1 : ∀ fuel, chunks.flatten.length < fuel →
      (handleStartTLSHandshake (Conn.ofChunks chunks ws)).1.content.length < fuel := by
    intro fuel hfuel
    rw [hcont1]
    split
    · rw [List.length_drop]; omega
    · exact hfuel
  have hmatch : chunks.flatten.take 8 = postgresStartTLSMsg →
        ∀ k fuel, 0 < k → chunks.flatten.length < fuel →
          (handleStartTLSHandshake (Conn.ofChunks chunks ws)).1.readAll k fuel
            = some (chunks.flatten.drop 8, Err.EOF) := by
    intro hsig k fuel hk hfuel
    rw [startTLSConn.readAll_regular k hk fuel _ hr1 (hlen1 fuel hfuel), hcont1, if_pos hsig]
  by_cases hnil : chunks = []
  · subst hnil
    have heq : handleStartTLSHandshake (Conn.ofChunks [([] : List (List Byte)).flatten] ws)
        = handleStartTLSHandshake (Conn.ofChunks [] ws) := rfl
    rw [heq]
    refine ⟨rfl, rfl, ?_, hmatch⟩
    intro k fuel hk hfuel
    exact ⟨rfl, _, startTLSConn.readAll_regular k hk fuel _ hr1 (hlen1 fuel hfuel)⟩
  · have hflat : chunks.flatten ≠ [] := by
      cases chunks with
      | nil => exact absurd rfl hnil
      | cons d rest =>
        have := hne d (List.mem_cons_self _ _)
        simp [this]
    have hc2 : (Conn.ofChunks [chunks.flatten] ws).Clean :=
      Conn.ofChunks_clean _ ws (by simpa using hflat)
    have hb2 : (Conn.ofChunks [chunks.flatten] ws).bytes = chunks.flatten := by
      rw [Conn.ofChunks_bytes]; simp
    obtain ⟨hr2, hcont2, herr2, hwr2⟩ := handle_clean _ hc2
    rw [hb2] at hcont2 herr2 hwr2
    obtain ⟨hw1, hw2, -⟩ := Conn.Write_congr (Conn.ofChunks chunks ws)
      (Conn.ofChunks [chunks.flatten] ws) postgresStartTLSReply rfl rfl
    refine ⟨?_, ?_, ?_, hmatch⟩
    · rw [herr1, herr2, hw1]
    · rw [hwr1, hwr2, hw2]; rfl
    · intro k fuel hk hfuel
      have hlen2 : (handleStartTLSHandshake
          (Conn.ofChunks [chunks.flatten] ws)).1.content.length < fuel := by
        rw [hcont2, ← hcont1]
        exact hlen1 fuel hfuel
      rw [startTLSConn.readAll_regular k hk fuel _ hr1 (hlen1 fuel hfuel),
        startTLSConn.readAll_regular k hk fuel _ hr2 hlen2, hcont1, hcont2]
      exact ⟨rfl, _, rfl⟩

/-- The signature followed by `Hi`, one byte per read: the same outcome as in
a single read, and `Hi` is left. -/
theorem handleStartTLSHandshake_chunking_witness :
    (handleStartTLSHandshake
        (Conn.ofChunks [[0], [0], [0], [8], [4], [210], [22], [47], [72], [105]] [])).2
        = (handleStartTLSHandshake
            (Conn.ofChunks [[0, 0, 0, 8, 4, 210, 22, 47, 72, 105]] [])).2 ∧
      (handleStartTLSHandshake
        (Conn.ofChunks [[0], [0], [0], [8], [4], [210], [22], [47], [72], [105]] [])).1.readAll 1 11
        = some ([72, 105], Err.EOF) :=
  have h := handleStartTLSHandshake_chunking
    [[0], [0], [0], [8], [4], [210], [22], [47], [72], [105]] [] (by decide)
  ⟨h.1, h.2.2.2 (by decide) 1 11 (by decide) (by decide)⟩

/-- C9 (write failure): if the stream starts with the signature and the write
of the reply fails with error `e`, `handleStartTLSHandshake` returns the
wrapper together with exactly `e`, and the eight bytes of the signature are
consumed: reading the wrapper to its end yields `B[8:]`. -/
theorem handleStartTLSHandshake_write_failure (c : Conn) (B : List Byte) (e : Err)
    (hc : c.Clean) (hB : c.bytes = B) (hsig : B.take 8 = postgresStartTLSMsg)
    (hw : (c.Write postgresStartTLSReply).1.2 = some e) :
    (handleStartTLSHandshake c).2 = some e ∧
      ∀ k fuel, 0 < k → B.length - 8 < fuel →
        (handleStartTLSHandshake c).1.readAll k fuel = some (B.drop 8, Err.EOF) := by
  subst hB
  obtain ⟨h1, h2, h3, -, -⟩ := handle_match c hc hsig
  refine ⟨by rw [h1, hw], ?_⟩
  intro k fuel hk hfuel
  rw [← h3]
  apply startTLSConn.readAll_regular k hk fuel _ h2
  rw [h3, List.length_drop]
  exact hfuel

/-- The signature followed by `Hi` on a connection whose first write fails
with a transport error: that error is returned and `Hi` is left. -/
theorem handleStartTLSHandshake_write_failure_witness :
    (handleStartTLSHandshake
        (Conn.ofChunks [[0, 0, 0, 8, 4, 210, 22, 47, 72, 105]]
          [WriteEvent.fail 0 (Err.transport 32)])).2 = some (Err.transport 32) ∧
      (handleStartTLSHandshake
        (Conn.ofChunks [[0, 0, 0, 8, 4, 210, 22, 47, 72, 105]]
          [WriteEvent.fail 0 (Err.transport 32)])).1.readAll 4 3
        = some ([72, 105], Err.EOF) :=
  have h := handleStartTLSHandshake_write_failure
    (Conn.ofChunks [[0, 0, 0, 8, 4, 210, 22, 47, 72, 105]]
      [WriteEvent.fail 0 (Err.transport 32)])
    [0, 0, 0, 8, 4, 210, 22, 47, 72, 105] (Err.transport 32)
    (by decide) (by decide) (by decide) (by decide)
  ⟨h.1, h.2 4 3 (by decide) (by decide)⟩

/-- C10 (peek failure is propagated): on any connection, if the peek of eight
bytes fails with error `e`, `handleStartTLSHandshake` returns the peeked
wrapper together with exactly `e` and has written nothing; hence it returns
`nil` only when the peek succeeded and returned eight bytes. -/
theorem handleStartTLSHandshake_peek_failure (c : Conn) :
    (∀ e, ((newStartTLSConn c).Peek 8).1.2 = some e →
        handleStartTLSHandshake c = (((newStartTLSConn c).Peek 8).2, some e) ∧
          (handleStartTLSHandshake c).1.conn.written = c.written) ∧
      ((handleStartTLSHandshake c).2 = none →
        ((newStartTLSConn c).Peek 8).1.2 = none ∧
          ((newStartTLSConn c).Peek 8).1.1.length = 8) := by
  have hf := (startTLSConn.Peek_frame (newStartTLSConn c) ((8 : Nat) : Int)).2.1
  have hl := startTLSConn.Peek_ok_length (newStartTLSConn c) 8
  have heq := handleStartTLSHandshake_eq c
  rw [show ((postgresStartTLSMsg.length : Nat) : Int) = ((8 : Nat) : Int) from rfl] at heq
  show (∀ e, ((newStartTLSConn c).Peek ((8 : Nat) : Int)).1.2 = some e →
        handleStartTLSHandshake c = (((newStartTLSConn c).Peek ((8 : Nat) : Int)).2, some e) ∧
          (handleStartTLSHandshake c).1.conn.written = c.written) ∧
      ((handleStartTLSHandshake c).2 = none →
        ((newStartTLSConn c).Peek ((8 : Nat) : Int)).1.2 = none ∧
          ((newStartTLSConn c).Peek ((8 : Nat) : Int)).1.1.length = 8)
  generalize (newStartTLSConn c).Peek ((8 : Nat) : Int) = rs at hf hl heq ⊢
  obtain ⟨⟨p, e0⟩, s1⟩ := rs
  simp only at hf hl heq ⊢
  constructor
  · intro e he
    subst he
    simp only at heq
    rw [heq]
    exact ⟨rfl, hf⟩
  · intro hnone
    cases e0 with
    | none => exact ⟨rfl, (hl rfl).1⟩
    | some e =>
      simp only at heq
      rw [heq] at hnone
      simp at hnone

/-- A connection that delivers two bytes and then fails with a transport
error: the error is returned with the peeked wrapper and nothing is written. -/
theorem handleStartTLSHandshake_peek_failure_witness :
    handleStartTLSHandshake
        { incoming := [{ data := [0, 0], err := none },
            { data := [], err := some (Err.transport 110) }],
          wscript := [], written := [] }
      = (((newStartTLSConn
            { incoming := [{ data := [0, 0], err := none },
                { data := [], err := some (Err.transport 110) }],
              wscript := [], written := [] }).Peek 8).2, some (Err.transport 110)) ∧
      (handleStartTLSHandshake
        { incoming := [{ data := [0, 0], err := none },
            { data := [], err := some (Err.transport 110) }],
          wscript := [], written := [] }).1.conn.written = [] :=
  (handleStartTLSHandshake_peek_failure
    { incoming := [{ data := [0, 0], err := none },
        { data := [], err := some (Err.transport 110) }],
      wscript := [], written := [] }).1 (Err.transport 110) (by decide)

/-- C11 (initiator, order and propagation of failures): on any connection,
`invokeStartTLSPostgresHandshake` first makes one write, of the eight bytes of
`postgresStartTLSMsg`.  If that write fails with error `e`, it returns exactly
`e` and no read has taken place: the connection is as the write left it.  If
the write succeeds, all eight bytes are in the log, one read takes place, and
if that read fails with error `e2` it returns exactly `e2`. -/
theorem invokeStartTLSPostgresHandshake_failures (c : Conn) :
    (invokeStartTLSPostgresHandshake c).2.written
        = (c.Write postgresStartTLSMsg).2.written ∧
      (∀ e, (c.Write postgresStartTLSMsg).1.2 = some e →
        (invokeStartTLSPostgresHandshake c).1 = some e ∧
          (invokeStartTLSPostgresHandshake c).2 = (c.Write postgresStartTLSMsg).2 ∧
          (invokeStartTLSPostgresHandshake c).2.incoming = c.incoming) ∧
      ((c.Write postgresStartTLSMsg).1.2 = none →
        (invokeStartTLSPostgresHandshake c).2.written = c.written ++ postgresStartTLSMsg ∧
          (invokeStartTLSPostgresHandshake c).2 = ((c.Write postgresStartTLSMsg).2.Read 1).2 ∧
          ∀ e2, ((c.Write postgresStartTLSMsg).2.Read 1).1.2 = some e2 →
            (invokeStartTLSPostgresHandshake c).1 = some e2) := by
  have hwr := Conn.Write_ok c postgresStartTLSMsg
  have hinc := Conn.Write_incoming c postgresStartTLSMsg
  unfold invokeStartTLSPostgresHandshake
  generalize c.Write postgresStartTLSMsg = wc at hwr hinc ⊢
  obtain ⟨⟨n, e0⟩, c1⟩ := wc
  simp only at hwr hinc ⊢
  cases e0 with
  | some e =>
    simp only [Option.some.injEq, forall_eq', reduceCtorEq, false_implies, and_true, true_and]
    exact hinc
  | none =>
    have hrw := Conn.Read_written c1 1
    simp only [List.length_replicate, reduceCtorEq, false_implies, implies_true, true_and,
      forall_const]
    generalize c1.Read 1 = rc at hrw ⊢
    obtain ⟨⟨d, e1⟩, c2⟩ := rc
    simp only at hrw ⊢
    cases e1 with
    | some e2 =>
      simp only [Option.some.injEq, forall_eq', and_true, true_and]
      exact ⟨hrw, by rw [hrw, hwr rfl]⟩
    | none =>
      simp only [reduceCtorEq, false_implies, implies_true, and_true]
      refine ⟨?_, ?_, ?_⟩
      · split <;> exact hrw
      · split <;> rw [hrw, hwr rfl]
      · split <;> rfl

/-- A connection whose first write fails after three bytes: the error of the
write is returned and the reply that is waiting is not read; and a connection
whose read fails: the error of the read is returned. -/
theorem invokeStartTLSPostgresHandshake_failures_witness :
    ((invokeStartTLSPostgresHandshake
          { incoming := [{ data := [83], err := none }],
            wscript := [WriteEvent.fail 3 (Err.transport 32)], written := [] }).1
        = some (Err.transport 32) ∧
      (invokeStartTLSPostgresHandshake
          { incoming := [{ data := [83], err := none }],
            wscript := [WriteEvent.fail 3 (Err.transport 32)], written := [] }).2.incoming
        = [{ data := [83], err := none }]) ∧
      (invokeStartTLSPostgresHandshake
          { incoming := [{ data := [], err := some (Err.transport 110) }],
            wscript := [], written := [] }).1
        = some (Err.transport 110) :=
  have h1 := (invokeStartTLSPostgresHandshake_failures
      { incoming := [{ data := [83], err := none }],
        wscript := [WriteEvent.fail 3 (Err.transport 32)], written := [] }).2.1
      (Err.transport 32) (by decide)
  have h2 := ((invokeStartTLSPostgresHandshake_failures
      { incoming := [{ data := [], err := some (Err.transport 110) }],
        wscript := [], written := [] }).2.2 (by decide)).2.2 (Err.transport 110) (by decide)
  ⟨⟨h1.1, h1.2.2⟩, h2⟩

/-- C12, as the code has it (peek length contract): take any wrapper with the
default buffer of 4096 bytes and its window within the buffer (every wrapper
made by `newStartTLSConn` is so, and `Peek` and `Read` keep it so:
`window_Peek`, `window_Read`), over any connection.  The bytes that `Peek(n)`
returns are always the first bytes of what is still to be read, at most 4096
of them.  With `0 ≤ n ≤ 4096` it either succeeds and returns exactly the first
`n` bytes, or fails and returns fewer than `n` bytes; the error is then
`io.EOF`, an error returned by a read of the connection, `io.ErrNoProgress`,
or the error that was pending in the reader.  With `n > 4096` it fails with
`bufio.ErrBufferFull`.  On a wrapper at rest over a stream that delivers its
bytes without read errors and is then closed, `Peek(n)` with `n ≤ 4096`
succeeds exactly when `n` bytes are left and otherwise fails with `io.EOF` and
returns all the bytes left, and `Peek(n)` with `n > 4096` returns the first
4096 bytes when that many are left. -/
theorem Peek_length_contract (s : startTLSConn) (n : Nat)
    (hsize : s.br.size = defaultBufSize) (hwin : s.br.buf.length ≤ s.br.size) :
    (s.Peek (n : Int)).1.1 <+: s.content ∧
      (s.Peek (n : Int)).1.1.length ≤ defaultBufSize ∧
      (n ≤ defaultBufSize →
        ((s.Peek (n : Int)).1.2 = none ∧ (s.Peek (n : Int)).1.1 = s.content.take n ∧
            (s.Peek (n : Int)).1.1.length = n) ∨
          (∃ e, (s.Peek (n : Int)).1.2 = some e ∧ (s.Peek (n : Int)).1.1.length < n ∧
            (e = Err.EOF ∨ e ∈ s.conn.readErrors ∨ e = Err.ErrNoProgress ∨
              s.br.err = some e))) ∧
      (defaultBufSize < n → (s.Peek (n : Int)).1.2 = some Err.ErrBufferFull) ∧
      (s.Steady → n ≤ defaultBufSize →
        (n ≤ s.content.length → (s.Peek (n : Int)).1 = (s.content.take n, none)) ∧
          (s.content.length < n → (s.Peek (n : Int)).1 = (s.content, some Err.EOF))) ∧
      (s.Steady → defaultBufSize < n → defaultBufSize ≤ s.content.length →
        (s.Peek (n : Int)).1 = (s.content.take defaultBufSize, some Err.ErrBufferFull)) := by
  obtain ⟨h1, h2, h3, h4⟩ := startTLSConn.Peek_any s n hwin
  rw [hsize] at h2 h3 h4
  refine ⟨h1, h2, ?_, h4, ?_, ?_⟩
  · intro hn
    rcases h3 hn with h | ⟨e, he1, he2, he3⟩
    · exact Or.inl h
    · refine Or.inr ⟨e, he1, he2, ?_⟩
      rcases he3 with h | h | h | h
      · exact Or.inr (Or.inr (Or.inr h))
      · exact Or.inr (Or.inr (Or.inl h))
      · exact Or.inl h
      · exact Or.inr (Or.inl h)
  · intro hs hn
    obtain ⟨hok, hshort⟩ := Steady_Peek_outcome s n hs hn
    exact ⟨hok, fun h => by rw [hshort h]⟩
  · intro hs hn hlen
    exact Steady_Peek_full s n hs hn hlen

/-- A connection that delivers two bytes and then a transport error: `Peek(8)`
on a fresh wrapper fails with fewer than eight bytes and an error that has one
of the four causes.  A stream of five bytes in two chunks: a peek of three
bytes succeeds, a peek of six fails with `io.EOF` and returns the five. -/
theorem Peek_length_contract_witness :
    (∃ e, ((newStartTLSConn
          { incoming := [{ data := [0, 0], err := none },
              { data := [], err := some (Err.transport 110) }],
            wscript := [], written := [] }).Peek 8).1.2 = some e ∧
        ((newStartTLSConn
          { incoming := [{ data := [0, 0], err := none },
              { data := [], err := some (Err.transport 110) }],
            wscript := [], written := [] }).Peek 8).1.1.length < 8 ∧
        (e = Err.EOF ∨
          e ∈ Conn.readErrors (newStartTLSConn
            { incoming := [{ data := [0, 0], err := none },
                { data := [], err := some (Err.transport 110) }],
              wscript := [], written := [] }).conn ∨
          e = Err.ErrNoProgress ∨
          (newStartTLSConn
            { incoming := [{ data := [0, 0], err := none },
                { data := [], err := some (Err.transport 110) }],
              wscript := [], written := [] }).br.err = some e)) ∧
      ((newStartTLSConn (Conn.ofChunks [[72, 101], [108, 108, 111]] [])).Peek 3).1
        = ([72, 101, 108], none) ∧
      ((newStartTLSConn (Conn.ofChunks [[72, 101], [108, 108, 111]] [])).Peek 6).1
        = ([72, 101, 108, 108, 111], some Err.EOF) :=
  ⟨((Peek_length_contract
      (newStartTLSConn
          { incoming := [{ data := [0, 0], err := none },
              { data := [], err := some (Err.transport 110) }],
            wscript := [], written := [] }) 8 rfl (by decide)).2.2.1 (by decide)).resolve_left (by decide),
    ((Peek_length_contract (newStartTLSConn (Conn.ofChunks [[72, 101], [108, 108, 111]] []))
      3 rfl (by decide)).2.2.2.2.1 (Steady_new _ (by decide)) (by decide)).1 (by decide),
    ((Peek_length_contract (newStartTLSConn (Conn.ofChunks [[72, 101], [108, 108, 111]] []))
      6 rfl (by decide)).2.2.2.2.1 (Steady_new _ (by decide)) (by decide)).2 (by decide)⟩

/-- C12 as stated fails: on a stream of 5000 bytes, `Peek(4097)` on a fresh
wrapper neither returns 4097 bytes nor fails with `io.EOF`; it fails with
`bufio.ErrBufferFull` and returns the 4096 bytes that the buffer holds. -/
theorem Peek_length_contract_counterexample :
    4097 ≤ (Conn.ofChunks [List.replicate 5000 7] []).bytes.length ∧
      ((newStartTLSConn (Conn.ofChunks [List.replicate 5000 7] [])).Peek 4097).1
        = (List.replicate 4096 7, some Err.ErrBufferFull) ∧
      ¬ ((((newStartTLSConn (Conn.ofChunks [List.replicate 5000 7] [])).Peek 4097).1.2 = none ∧
            ((newStartTLSConn
              (Conn.ofChunks [List.replicate 5000 7] [])).Peek 4097).1.1.length = 4097) ∨
          ((newStartTLSConn (Conn.ofChunks [List.replicate 5000 7] [])).Peek 4097).1.2
            = some Err.EOF) := by
  have hc : (Conn.ofChunks [List.replicate 5000 7] []).Clean :=
    Conn.ofChunks_clean _ _ (by
      intro d hd
      simp only [List.mem_singleton] at hd
      subst hd
      intro h
      have hl := congrArg List.length h
      simp only [List.length_replicate, List.length_nil] at hl
      omega)
  have hb : (Conn.ofChunks [List.replicate 5000 7] []).bytes = List.replicate 5000 7 := by
    rw [Conn.ofChunks_bytes]
    simp only [List.flatten_cons, List.flatten_nil, List.append_nil]
  have hp := startTLSConn.Peek_full (newStartTLSConn (Conn.ofChunks [List.replicate 5000 7] []))
    4097 (newStartTLSConn_regular _ hc) (by decide : 4096 < 4097)
    (by rw [newStartTLSConn_content, hb, List.length_replicate]; decide)
  rw [newStartTLSConn_content, hb] at hp
  have htake : List.take 4096 (List.replicate 5000 (7 : Byte)) = List.replicate 4096 7 := by
    rw [List.take_replicate, Nat.min_eq_left (by decide : 4096 ≤ 5000)]
  have hp2 : ((newStartTLSConn (Conn.ofChunks [List.replicate 5000 7] [])).Peek 4097).1
      = (List.replicate 4096 7, some Err.ErrBufferFull) := by
    rw [← htake]
    exact hp
  refine ⟨by rw [hb, List.length_replicate]; decide, hp2, ?_⟩
  rw [hp2]
  rintro (⟨h, -⟩ | h)
  · exact Option.noConfusion h
  · exact Err.noConfusion (Option.some.inj h)

/-- C13 (always the wrapper): on any connection `c`, what
`handleStartTLSHandshake` returns is the wrapper made by `newStartTLSConn c`,
with its buffer of the default size: as the peek left it (peek error and
non-match), or as the peek, the consuming read and the write of the reply left
it (write error and success).  A write through the returned wrapper is a write
on the underlying connection: it has the result, and adds to the log, of the
same write made on `c` itself after the handshake. -/
theorem handleStartTLSHandshake_returns_wrapper (c : Conn) (p : List Byte) :
    (handleStartTLSHandshake c).1.br.size = defaultBufSize ∧
      (((handleStartTLSHandshake c).1 = ((newStartTLSConn c).Peek 8).2 ∧
          ((handleStartTLSHandshake c).1.Write p).1 = (c.Write p).1 ∧
          ((handleStartTLSHandshake c).1.Write p).2.conn.written = (c.Write p).2.written) ∨
        ((handleStartTLSHandshake c).1 =
            { br := ((((newStartTLSConn c).Peek 8).2).Read 8).2.br,
              conn := ((((newStartTLSConn c).Peek 8).2.Read 8).2.conn.Write
                postgresStartTLSReply).2 } ∧
          ((handleStartTLSHandshake c).1.Write p).1
            = ((c.Write postgresStartTLSReply).2.Write p).1 ∧
          ((handleStartTLSHandshake c).1.Write p).2.conn.written
            = ((c.Write postgresStartTLSReply).2.Write p).2.written)) := by
  have hpf := startTLSConn.Peek_frame (newStartTLSConn c) ((8 : Nat) : Int)
  have hrf := startTLSConn.Read_frame ((newStartTLSConn c).Peek ((8 : Nat) : Int)).2 8
  have heq := handleStartTLSHandshake_eq c
  rw [show ((postgresStartTLSMsg.length : Nat) : Int) = ((8 : Nat) : Int) from rfl] at heq
  show (handleStartTLSHandshake c).1.br.size = defaultBufSize ∧
      (((handleStartTLSHandshake c).1 = ((newStartTLSConn c).Peek ((8 : Nat) : Int)).2 ∧
          ((handleStartTLSHandshake c).1.Write p).1 = (c.Write p).1 ∧
          ((handleStartTLSHandshake c).1.Write p).2.conn.written = (c.Write p).2.written) ∨
        ((handleStartTLSHandshake c).1 =
            { br := ((((newStartTLSConn c).Peek ((8 : Nat) : Int)).2).Read 8).2.br,
              conn := ((((newStartTLSConn c).Peek ((8 : Nat) : Int)).2.Read 8).2.conn.Write
                postgresStartTLSReply).2 } ∧
          ((handleStartTLSHandshake c).1.Write p).1
            = ((c.Write postgresStartTLSReply).2.Write p).1 ∧
          ((handleStartTLSHandshake c).1.Write p).2.conn.written
            = ((c.Write postgresStartTLSReply).2.Write p).2.written))
  generalize (newStartTLSConn c).Peek ((8 : Nat) : Int) = rs at hpf hrf heq ⊢
  obtain ⟨⟨q, e0⟩, s1⟩ := rs
  simp only at hpf hrf heq ⊢
  have hsz : s1.br.size = defaultBufSize := hpf.2.2
  have hA : ∀ s : startTLSConn, s = s1 →
      (s.Write p).1 = (c.Write p).1 ∧ (s.Write p).2.conn.written = (c.Write p).2.written := by
    intro s hs
    subst hs
    obtain ⟨h1, h2, -⟩ := Conn.Write_congr s.conn c p hpf.1 hpf.2.1
    exact ⟨h1, h2⟩
  have hpath1 : ∀ r : startTLSConn × Option Err, r.1 = s1 →
      r.1.br.size = defaultBufSize ∧
        ((r.1 = s1 ∧ (r.1.Write p).1 = (c.Write p).1 ∧
            (r.1.Write p).2.conn.written = (c.Write p).2.written) ∨
          (r.1 = { br := (s1.Read 8).2.br,
                   conn := ((s1.Read 8).2.conn.Write postgresStartTLSReply).2 } ∧
            (r.1.Write p).1 = ((c.Write postgresStartTLSReply).2.Write p).1 ∧
            (r.1.Write p).2.conn.written
              = ((c.Write postgresStartTLSReply).2.Write p).2.written)) := by
    intro r hr
    refine ⟨by rw [hr]; exact hsz, Or.inl ⟨hr, hA r.1 hr⟩⟩
  cases e0 with
  | some e =>
    simp only at heq
    rw [heq]
    exact hpath1 _ rfl
  | none =>
    simp only at heq
    by_cases hq : q ≠ postgresStartTLSMsg
    · rw [if_pos hq] at heq
      rw [heq]
      exact hpath1 _ rfl
    · rw [if_neg hq] at heq
      have hq2 : q = postgresStartTLSMsg := by
        by_contra h
        exact hq h
      subst hq2
      rw [show postgresStartTLSMsg.length = 8 from rfl] at heq
      rw [heq]
      refine ⟨?_, Or.inr ⟨rfl, ?_⟩⟩
      · show (s1.Read 8).2.br.size = defaultBufSize
        rw [hrf.2.2, hsz]
      · have hw1 : (s1.Read 8).2.conn.wscript = c.wscript := by rw [hrf.1, hpf.1]; rfl
        have hw2 : (s1.Read 8).2.conn.written = c.written := by rw [hrf.2.1, hpf.2.1]; rfl
        obtain ⟨-, h2, h3⟩ := Conn.Write_congr (s1.Read 8).2.conn c postgresStartTLSReply hw1 hw2
        obtain ⟨h4, h5, -⟩ := Conn.Write_congr
          ((s1.Read 8).2.conn.Write postgresStartTLSReply).2
          (c.Write postgresStartTLSReply).2 p h3 h2
        exact ⟨h4, h5⟩

/-- C14 (the mismatch error names both bytes): if the write of the signature
succeeds and the read delivers, without error, one byte `r` other than `0x53`,
the error returned by `invokeStartTLSPostgresHandshake` has a text that
contains the decimal digits of `r`, in the form `[r]` in which `%v` prints the
slice, and the expected byte in the form `'S'`. -/
theorem invokeStartTLSPostgresHandshake_mismatch_text (c : Conn) (r : Byte)
    (hw : (c.Write postgresStartTLSMsg).1.2 = none)
    (hr : ((c.Write postgresStartTLSMsg).2.Read 1).1 = ([r], none)) (hne : r ≠ 0x53) :
    ∃ e text, (invokeStartTLSPostgresHandshake c).1 = some e ∧ e.Error = some text ∧
      (Nat.repr r).data <:+: text.data ∧
      ("[" ++ Nat.repr r ++ "]").data <:+: text.data ∧
      "\x27S\x27".data <:+: text.data := by
  have hinv : (invokeStartTLSPostgresHandshake c).1 = some (Err.unexpectedResponse [r]) := by
    rw [invokeStartTLSPostgresHandshake_eq, hw]
    simp only
    rw [hr]
    simp only
    rw [if_pos (by simpa [stored] using hne)]
    rfl
  refine ⟨_, _, hinv, Err.Error_unexpectedResponse r, ?_, ?_, ?_⟩
  · refine ⟨"Unexpected postgres starttls handshake response got [".data,
      "] want \x27S\x27 ".data, ?_⟩
    simp only [String.data_append]
    simp
  · refine ⟨"Unexpected postgres starttls handshake response got ".data,
      " want \x27S\x27 ".data, ?_⟩
    simp only [String.data_append]
  · refine ⟨("Unexpected postgres starttls handshake response got "
      ++ ("[" ++ Nat.repr r ++ "]") ++ " want ").data, " ".data, ?_⟩
    simp only [String.data_append]
    simp

/-- A server that answers `0x00`: the text of the error contains `[0]` and
`'S'`. -/
theorem invokeStartTLSPostgresHandshake_mismatch_text_witness :
    ∃ e text, (invokeStartTLSPostgresHandshake (Conn.ofChunks [[0]] [])).1 = some e ∧
      e.Error = some text ∧
      (Nat.repr 0).data <:+: text.data ∧
      ("[" ++ Nat.repr 0 ++ "]").data <:+: text.data ∧
      "\x27S\x27".data <:+: text.data :=
  invokeStartTLSPostgresHandshake_mismatch_text (Conn.ofChunks [[0]] []) 0
    (by decide) (by decide) (by decide)

/-- C15 (the consuming step cannot fail or fall short): on any wrapper over
any connection, if `Peek(8)` has returned the eight bytes of the signature
without error, the `Read` into the eight-byte slice that follows returns those
eight bytes (count 8) and no error, takes exactly eight bytes off the front of
the buffer, whatever else the buffer holds, and leaves the connection and the
pending error of the reader as they were: no read of the connection takes
place. -/
theorem startTLSConn_consuming_read (s : startTLSConn)
    (h : (s.Peek 8).1 = (postgresStartTLSMsg, none)) :
    ((s.Peek 8).2.Read 8).1 = (postgresStartTLSMsg, none) ∧
      ((s.Peek 8).2.Read 8).1.1.length = 8 ∧
      (s.Peek 8).2.br.buf = postgresStartTLSMsg ++ ((s.Peek 8).2.Read 8).2.br.buf ∧
      ((s.Peek 8).2.Read 8).2.br.buf = (s.Peek 8).2.br.buf.drop 8 ∧
      ((s.Peek 8).2.Read 8).2.br.err = (s.Peek 8).2.br.err ∧
      ((s.Peek 8).2.Read 8).2.conn = (s.Peek 8).2.conn := by
  have h1 : (s.Peek ((8 : Nat) : Int)).1 = (postgresStartTLSMsg, none) := h
  have hok := startTLSConn.Peek_ok_length s 8 (by rw [h1])
  show ((s.Peek ((8 : Nat) : Int)).2.Read 8).1 = (postgresStartTLSMsg, none) ∧
      ((s.Peek ((8 : Nat) : Int)).2.Read 8).1.1.length = 8 ∧
      (s.Peek ((8 : Nat) : Int)).2.br.buf
        = postgresStartTLSMsg ++ ((s.Peek ((8 : Nat) : Int)).2.Read 8).2.br.buf ∧
      ((s.Peek ((8 : Nat) : Int)).2.Read 8).2.br.buf
        = (s.Peek ((8 : Nat) : Int)).2.br.buf.drop 8 ∧
      ((s.Peek ((8 : Nat) : Int)).2.Read 8).2.br.err = (s.Peek ((8 : Nat) : Int)).2.br.err ∧
      ((s.Peek ((8 : Nat) : Int)).2.Read 8).2.conn = (s.Peek ((8 : Nat) : Int)).2.conn
  generalize s.Peek ((8 : Nat) : Int) = rs at h1 hok ⊢
  obtain ⟨⟨q, e0⟩, s1⟩ := rs
  simp only [Prod.mk.injEq] at h1 hok ⊢
  obtain ⟨rfl, rfl⟩ := h1
  obtain ⟨-, htake, hlen⟩ := hok
  rw [startTLSConn.Read_buffered s1 8 (by decide) (by omega)]
  refine ⟨by rw [← htake], ?_, ?_, rfl, rfl, rfl⟩
  · rw [← htake]; rfl
  · conv_lhs => rw [← List.take_append_drop 8 s1.br.buf]
    rw [← htake]

/-- The signature and two more bytes, all delivered by one read and so all in
the buffer after the peek: the read returns the eight bytes of the signature
and leaves the two others in the buffer. -/
theorem startTLSConn_consuming_read_witness :
    (((newStartTLSConn
          (Conn.ofChunks [[0, 0, 0, 8, 4, 210, 22, 47, 72, 105]] [])).Peek 8).2.Read 8).1
        = (postgresStartTLSMsg, none) ∧
      (((newStartTLSConn
          (Conn.ofChunks [[0, 0, 0, 8, 4, 210, 22, 47, 72, 105]] [])).Peek 8).2.Read 8).2.br.buf
        = [72, 105] :=
  have h := startTLSConn_consuming_read
    (newStartTLSConn (Conn.ofChunks [[0, 0, 0, 8, 4, 210, 22, 47, 72, 105]] [])) (by decide)
  ⟨h.1, h.2.2.2.1⟩

/-- C16 (initiator and detector interoperate): let the initiator run on a
connection `cc` and the detector on a connection `sc`, both with an empty log
and a write that succeeds.  If `sc` delivers what the initiator has written
followed by a payload `C`, the detector returns no error, its log is exactly
`[0x53]`, and reading its wrapper to the end yields exactly `C`.  If moreover
`cc` delivers what the detector has written followed by a payload `D`, the
initiator returns no error and exactly `D` is left to be read on `cc`. -/
theorem initiator_detector_interoperate (cc sc : Conn) (C D : List Byte)
    (hcw : cc.written = []) (hcok : (cc.Write postgresStartTLSMsg).1.2 = none)
    (hsc : sc.Clean) (hsw : sc.written = [])
    (hsok : (sc.Write postgresStartTLSReply).1.2 = none)
    (hin : sc.bytes = (invokeStartTLSPostgresHandshake cc).2.written ++ C) :
    (invokeStartTLSPostgresHandshake cc).2.written = postgresStartTLSMsg ∧
      (handleStartTLSHandshake sc).2 = none ∧
      (handleStartTLSHandshake sc).1.conn.written = [0x53] ∧
      (∀ k fuel, 0 < k → C.length < fuel →
        (handleStartTLSHandshake sc).1.readAll k fuel = some (C, Err.EOF)) ∧
      (cc.Clean → cc.bytes = (handleStartTLSHandshake sc).1.conn.written ++ D →
        (invokeStartTLSPostgresHandshake cc).1 = none ∧
          (invokeStartTLSPostgresHandshake cc).2.bytes = D) := by
  obtain ⟨hconn, hverdict⟩ := invoke_write_ok cc hcok
  have hwritten : (invokeStartTLSPostgresHandshake cc).2.written = postgresStartTLSMsg := by
    rw [hconn, Conn.Read_written, Conn.Write_ok cc _ hcok, hcw]
    rfl
  rw [hwritten] at hin
  have hsig : sc.bytes.take 8 = postgresStartTLSMsg := by
    rw [hin]
    exact @List.take_left' Byte postgresStartTLSMsg C 8 rfl
  have hdrop : sc.bytes.drop 8 = C := by
    rw [hin]
    exact @List.drop_left' Byte postgresStartTLSMsg C 8 rfl
  obtain ⟨h1, h2, h3, h4, -⟩ := handle_match sc hsc hsig
  have hlog : (handleStartTLSHandshake sc).1.conn.written = [0x53] := by
    rw [h4, Conn.Write_ok sc _ hsok, hsw]
    rfl
  refine ⟨hwritten, by rw [h1, hsok], hlog, ?_, ?_⟩
  · intro k fuel hk hfuel
    rw [← hdrop, ← h3]
    exact startTLSConn.readAll_regular k hk fuel _ h2 (by rw [h3, hdrop]; exact hfuel)
  · intro hcc hreply
    rw [hlog] at hreply
    have hc1 := Conn.Write_clean cc postgresStartTLSMsg hcc
    have hb1 : (cc.Write postgresStartTLSMsg).2.bytes = [0x53] ++ D := by
      rw [Conn.Write_bytes, hreply]
    have hne : (cc.Write postgresStartTLSMsg).2.incoming ≠ [] := by
      intro h0
      have := (Conn.bytes_nil_iff _ hc1).mpr h0
      rw [hb1] at this
      simp at this
    obtain ⟨r1, r2, r3, -⟩ := Conn.Read_clean _ 1 hc1 (by decide) hne
    have r4 := Conn.Read_length (cc.Write postgresStartTLSMsg).2 1
    rw [hconn, hverdict]
    generalize (cc.Write postgresStartTLSMsg).2.Read 1 = rc at r1 r2 r3 r4 ⊢
    obtain ⟨⟨d, e⟩, c2⟩ := rc
    simp only at r1 r2 r3 r4 ⊢
    subst r1
    rw [hb1] at r3
    match d, r2, r4, r3 with
    | [x], _, _, r3 =>
      simp only [List.singleton_append, List.cons_append, List.nil_append,
        List.cons.injEq] at r3
      obtain ⟨rfl, rfl⟩ := r3
      exact ⟨by simp [stored], rfl⟩

/-- The initiator writes the signature, the detector receives it followed by
`Hi` and answers `0x53`, and the initiator receives that answer followed by
`Yo`: both succeed, `Hi` is left for the server and `Yo` for the client. -/
theorem initiator_detector_interoperate_witness :
    (handleStartTLSHandshake
        (Conn.ofChunks [[0, 0, 0, 8, 4, 210, 22, 47, 72, 105]] [])).1.conn.written = [0x53] ∧
      (handleStartTLSHandshake
        (Conn.ofChunks [[0, 0, 0, 8, 4, 210, 22, 47, 72, 105]] [])).1.readAll 8 3
        = some ([72, 105], Err.EOF) ∧
      (invokeStartTLSPostgresHandshake (Conn.ofChunks [[83, 89, 111]] [])).1 = none ∧
      (invokeStartTLSPostgresHandshake (Conn.ofChunks [[83, 89, 111]] [])).2.bytes
        = [89, 111] :=
  have h := initiator_detector_interoperate (Conn.ofChunks [[83, 89, 111]] [])
    (Conn.ofChunks [[0, 0, 0, 8, 4, 210, 22, 47, 72, 105]] []) [72, 105] [89, 111]
    (by decide) (by decide) (by decide) (by decide) (by decide) (by decide)
  ⟨h.2.2.1, h.2.2.2.1 8 3 (by decide) (by decide),
    (h.2.2.2.2 (by decide) (by decide)).1, (h.2.2.2.2 (by decide) (by decide)).2⟩

/-- C17 (nothing is lost on an early end of stream): if the connection
delivers fewer than eight bytes `B`, in non-empty chunks of any sizes, and is
then closed, then after `handleStartTLSHandshake` has returned `io.EOF` the
bytes are all in the buffer of the returned wrapper, and reading the wrapper
to its end yields exactly `B`. -/
theorem handleStartTLSHandshake_short_keeps_bytes (c : Conn) (B : List Byte)
    (hc : c.Clean) (hB : c.bytes = B) (hlen : B.length < 8) :
    (handleStartTLSHandshake c).2 = some Err.EOF ∧
      (handleStartTLSHandshake c).1.br.buf = B ∧
      ∀ k fuel, 0 < k → B.length < fuel →
        (handleStartTLSHandshake c).1.readAll k fuel = some (B, Err.EOF) := by
  subst hB
  obtain ⟨hreg, hcont, -, -⟩ := handle_clean c hc
  have hsig : c.bytes.take 8 ≠ postgresStartTLSMsg := by
    intro h
    have hl := congrArg List.length h
    rw [List.length_take] at hl
    simp only [postgresStartTLSMsg, List.length_cons, List.length_nil] at hl
    omega
  rw [if_neg hsig] at hcont
  have hs := handle_short c hc hlen
  refine ⟨by rw [hs], by rw [hs], ?_⟩
  intro k fuel hk hfuel
  rw [← hcont]
  exact startTLSConn.readAll_regular k hk fuel _ hreg (by rw [hcont]; exact hfuel)

/-- The five bytes of `Hello` in two chunks, after which the stream closes:
`io.EOF` is returned and the wrapper still reads `Hello`. -/
theorem handleStartTLSHandshake_short_keeps_bytes_witness :
    (handleStartTLSHandshake (Conn.ofChunks [[72, 101, 108], [108, 111]] [])).2
        = some Err.EOF ∧
      (handleStartTLSHandshake (Conn.ofChunks [[72, 101, 108], [108, 111]] [])).1.readAll 2 6
        = some ([72, 101, 108, 108, 111], Err.EOF) :=
  have h := handleStartTLSHandshake_short_keeps_bytes
    (Conn.ofChunks [[72, 101, 108], [108, 111]] []) [72, 101, 108, 108, 111]
    (by decide) (by decide) (by decide)
  ⟨h.1, h.2.2 2 6 (by decide) (by decide)⟩

/-- C18 (the initiator takes at most one byte and needs the acknowledgment): on
any connection, `invokeStartTLSPostgresHandshake` makes at most one read, into
a buffer of one byte, so what it has taken is at most one byte off the front
of what the connection delivers and all the rest is still to be read; it
returns `nil` only if the write succeeded and that read delivered the byte
`0x53` without error; and a read that delivers no byte and no error leads to
the mismatch error (on the zero byte of the fresh buffer), not to success. -/
theorem invokeStartTLSPostgresHandshake_single_read (c : Conn) :
    (∃ d : List Byte, d.length ≤ 1 ∧
        d ++ (invokeStartTLSPostgresHandshake c).2.bytes = c.bytes) ∧
      ((invokeStartTLSPostgresHandshake c).2 = (c.Write postgresStartTLSMsg).2 ∨
        (invokeStartTLSPostgresHandshake c).2
          = ((c.Write postgresStartTLSMsg).2.Read 1).2) ∧
      ((invokeStartTLSPostgresHandshake c).1 = none →
        (c.Write postgresStartTLSMsg).1.2 = none ∧
          ((c.Write postgresStartTLSMsg).2.Read 1).1 = ([0x53], none)) ∧
      ((c.Write postgresStartTLSMsg).1.2 = none →
        ((c.Write postgresStartTLSMsg).2.Read 1).1 = ([], none) →
        (invokeStartTLSPostgresHandshake c).1 = some (Err.unexpectedResponse [0]) ∧
          (invokeStartTLSPostgresHandshake c).1 ≠ none) := by
  have hwb := Conn.Write_bytes c postgresStartTLSMsg
  cases hw : (c.Write postgresStartTLSMsg).1.2 with
  | some e =>
    have heq : invokeStartTLSPostgresHandshake c = (some e, (c.Write postgresStartTLSMsg).2) := by
      rw [invokeStartTLSPostgresHandshake_eq, hw]
    rw [heq]
    refine ⟨⟨[], by decide, by simpa using hwb⟩, Or.inl rfl, ?_, ?_⟩
    · intro h
      simp at h
    · intro h
      simp at h
  | none =>
    obtain ⟨hconn, hverdict⟩ := invoke_write_ok c hw
    have hrb := Conn.Read_bytes (c.Write postgresStartTLSMsg).2 1
    have hrl := Conn.Read_length (c.Write postgresStartTLSMsg).2 1
    rw [hconn, hverdict]
    rw [hwb] at hrb
    generalize (c.Write postgresStartTLSMsg).2.Read 1 = rc at hrb hrl ⊢
    obtain ⟨⟨d, e1⟩, c2⟩ := rc
    simp only at hrb hrl ⊢
    refine ⟨⟨d, hrl, hrb⟩, Or.inr trivial, ?_, ?_⟩
    · intro h
      refine ⟨trivial, ?_⟩
      cases e1 with
      | some e => simp at h
      | none =>
        simp only at h
        match d, hrl with
        | [], _ => simp [stored] at h
        | [x], _ =>
          simp only [stored, List.length_cons, List.length_nil, List.drop, List.append_nil,
            List.headD_cons, ne_eq, ite_eq_right_iff, reduceCtorEq, imp_false,
            Decidable.not_not] at h
          rw [h]
    · intro _ h
      simp only [Prod.mk.injEq] at h
      obtain ⟨rfl, rfl⟩ := h
      simp [stored]

/-- A connection whose next read delivers no byte and no error, although the
acknowledgment would follow: the initiator reports the mismatch on the zero
byte and the acknowledgment is still unread. -/
theorem invokeStartTLSPostgresHandshake_single_read_witness :
    (invokeStartTLSPostgresHandshake
        { incoming := [{ data := [], err := none }, { data := [83], err := none }],
          wscript := [], written := [] }).1 = some (Err.unexpectedResponse [0]) ∧
      (invokeStartTLSPostgresHandshake
        { incoming := [{ data := [], err := none }, { data := [83], err := none }],
          wscript := [], written := [] }).1 ≠ none :=
  (invokeStartTLSPostgresHandshake_single_read
    { incoming := [{ data := [], err := none }, { data := [83], err := none }],
      wscript := [], written := [] }).2.2.2 (by decide) (by decide)

end StartTLS
